import Mathlib

/-!
Verification of the MongoDB RAG Agent retrieval core against its
natural-language specification.  The Python source is shallowly embedded:
pure functions become Lean functions, MongoDB aggregation results and the
Komga HTTP API become explicit oracle parameters, Python floats become
exact rationals, Python dicts become insertion-ordered association lists,
and Python exceptions become `Except` values.
-/

set_option maxHeartbeats 1000000

/-- Association-list lookup with decidable key equality.  Models Python
`dict.get` / `dict[k]` read access on an insertion-ordered dict. -/
def lookupA {α β : Type} [DecidableEq α] : List (α × β) → α → Option β
  | [], _ => none
  | (a, b) :: t, c => if a = c then some b else lookupA t c

/-- Association-list update: replaces the value at an existing key in place
(keeping its position) or appends a new binding at the end.  Models Python
`dict[k] = v` on an insertion-ordered dict. -/
def setA {α β : Type} [DecidableEq α] : List (α × β) → α → β → List (α × β)
  | [], c, v => [(c, v)]
  | (a, b) :: t, c, v => if a = c then (a, v) :: t else (a, b) :: setA t c v

/-- Chunk metadata.  The Python source stores an open `Dict[str, Any]`; the
only key the verified code reads is `page_numbers`, an optional list of
1-indexed page numbers, so the embedding models exactly that key. -/
structure Metadata where
  page_numbers : Option (List Nat)
  deriving DecidableEq, Repr

/-- Model of `SearchResult` (src/tools.py).  `similarity` is a Python float
in the source, embedded as an exact rational. -/
structure SearchResult where
  chunk_id : String
  document_id : String
  content : String
  similarity : ℚ
  metadata : Metadata
  document_title : String
  document_source : String
  deriving DecidableEq, Repr

/-- A default result used for the dead `KeyError` branch of chunk-map
lookups that the invariants prove unreachable. -/
def dummyResult : SearchResult :=
  { chunk_id := "", document_id := "", content := "", similarity := 0,
    metadata := { page_numbers := none }, document_title := "", document_source := "" }

/-- The fields of the settings object that the search tools read. -/
structure Settings where
  default_match_count : Nat
  max_match_count : Nat
  deriving DecidableEq, Repr

/-- A MongoDB error (e.g. `OperationFailure`); the payload is the message. -/
def MongoErr : Type := String

/-- One document as produced by the aggregation pipeline stages before any
`$match` source filter: `$vectorSearch`/`$search`, `$lookup`, `$unwind`,
`$project`.  The `$project` stage of both channels emits exactly these
fields (ObjectIds already stringified in the embedding). -/
structure ChunkDoc where
  chunk_id : String
  document_id : String
  content : String
  similarity : ℚ
  metadata : Metadata
  document_title : String
  document_source : String
  deriving DecidableEq, Repr

/-- The Python-side conversion of an aggregation document into a
`SearchResult` (the list comprehension in `semantic_search`/`text_search`). -/
def toSearchResult (d : ChunkDoc) : SearchResult :=
  { chunk_id := d.chunk_id, document_id := d.document_id, content := d.content,
    similarity := d.similarity, metadata := d.metadata,
    document_title := d.document_title, document_source := d.document_source }

/-- The `$match: {document_source: {$regex: pat}}` stage.  Regex matching is
performed by MongoDB; the embedding abstracts it as an oracle
`rm : pattern → subject → Bool`. -/
def matchStage (rm : String → String → Bool) (sf : Option String)
    (docs : List ChunkDoc) : List ChunkDoc :=
  match sf with
  | some pat => docs.filter (fun d => rm pat d.document_source)
  | none => docs

/-- Embedding of `semantic_search` (src/tools.py lines 27-143).

The backend is abstracted: `backend` is the ranked stream the vector index
would produce for the query (before the pipeline `limit`), wrapped in
`Except` because the aggregation may raise.  The function clamps
`match_count`, applies the pipeline `limit` (`3×` over-fetch when a source
filter is present), applies the `$match` source filter, truncates to
`match_count` on the Python side, converts the documents, and returns `[]`
on any backend error (the two `except` clauses). -/
def semantic_search (rm : String → String → Bool) (st : Settings)
    (backend : Except MongoErr (List ChunkDoc))
    (match_count : Option Nat) (source_filter : Option String) : List SearchResult :=
  let mc0 := match_count.getD st.default_match_count
  let mc := min mc0 st.max_match_count
  match backend with
  | .error _ => []
  | .ok docs =>
    let lim := if source_filter.isSome then mc * 3 else mc
    let filtered := matchStage rm source_filter (docs.take lim)
    (filtered.take mc).map toSearchResult

/-- Embedding of `text_search` (src/tools.py lines 146-264).

Identical shape to `semantic_search` except: the pipeline `$limit` is
`mc*3` when filtering and `mc*2` otherwise, and the Python-side truncation
is `[:match_count * 2]` (source line 233). -/
def text_search (rm : String → String → Bool) (st : Settings)
    (backend : Except MongoErr (List ChunkDoc))
    (match_count : Option Nat) (source_filter : Option String) : List SearchResult :=
  let mc0 := match_count.getD st.default_match_count
  let mc := min mc0 st.max_match_count
  match backend with
  | .error _ => []
  | .ok docs =>
    let lim := if source_filter.isSome then mc * 3 else mc * 2
    let filtered := matchStage rm source_filter (docs.take lim)
    (filtered.take (mc * 2)).map toSearchResult

/-! ### Reciprocal Rank Fusion (src/tools.py lines 267-338) -/

/-- Increment the value stored at key `c` in an association list, in place.
Models `rrf_scores[chunk_id] += rrf_score` on a Python dict (the key is
guaranteed present at the call site). -/
def bumpA : List (String × ℚ) → String → ℚ → List (String × ℚ)
  | [], _, _ => []
  | (a, v) :: t, c, q => if a = c then (a, v + q) :: t else (a, v) :: bumpA t c q

/-- The fusion loop state: the `rrf_scores` dict and the `chunk_map` dict,
both insertion-ordered. -/
def RRFState : Type := List (String × ℚ) × List (String × SearchResult)

/-- One iteration of the inner RRF loop body for `result` at 0-indexed
`rank`: contribute `1/(k + rank)`; a first-seen `chunk_id` is appended to
both dicts, a repeated one only has its score bumped. -/
def rrfUpdate (k : Nat) (st : RRFState) (rank : Nat) (res : SearchResult) : RRFState :=
  let c := res.chunk_id
  let q : ℚ := 1 / ((k : ℚ) + (rank : ℚ))
  if c ∈ st.1.map Prod.fst then
    (bumpA st.1 c q, st.2)
  else
    (st.1 ++ [(c, q)], st.2 ++ [(c, res)])

/-- The inner loop `for rank, result in enumerate(results)` starting at a
given rank. -/
def procFrom (k : Nat) (st : RRFState) (rank : Nat) : List SearchResult → RRFState
  | [] => st
  | r :: rs => procFrom k (rrfUpdate k st rank r) (rank + 1) rs

/-- The outer loop `for results in search_results_list`. -/
def procAll (k : Nat) (st : RRFState) : List (List SearchResult) → RRFState
  | [] => st
  | l :: ls => procAll k (procFrom k st 0 l) ls

/-- Total order used to embed Python's
`sorted(rrf_scores.items(), key=lambda x: x[1], reverse=True)`: score
descending, and — since Python's sort is stable — ties broken by the
item's position in the dict (its insertion order). -/
def rrfRel (a b : Nat × (String × ℚ)) : Prop :=
  b.2.2 < a.2.2 ∨ (a.2.2 = b.2.2 ∧ a.1 ≤ b.1)

instance : DecidableRel rrfRel := fun a b => by
  unfold rrfRel; infer_instance

instance : IsTotal (Nat × (String × ℚ)) rrfRel := by
  constructor
  intro a b
  rcases lt_trichotomy a.2.2 b.2.2 with h | h | h
  · exact Or.inr (Or.inl h)
  · rcases Nat.le_total a.1 b.1 with h2 | h2
    · exact Or.inl (Or.inr ⟨h, h2⟩)
    · exact Or.inr (Or.inr ⟨h.symm, h2⟩)
  · exact Or.inl (Or.inl h)

instance : IsTrans (Nat × (String × ℚ)) rrfRel := by
  constructor
  intro a b c hab hbc
  rcases hab with h1 | ⟨h1, h1'⟩ <;> rcases hbc with h2 | ⟨h2, h2'⟩
  · exact Or.inl (h2.trans h1)
  · exact Or.inl (h2 ▸ h1)
  · exact Or.inl (h1 ▸ h2)
  · exact Or.inr ⟨h1.trans h2, h1'.trans h2'⟩

/-- `enumerate` on a list starting from index `n`. -/
def enumFrom {α : Type} : Nat → List α → List (Nat × α)
  | _, [] => []
  | n, a :: t => (n, a) :: enumFrom (n + 1) t

/-- Embedding of `reciprocal_rank_fusion` (src/tools.py lines 267-338).

Accumulates scores and first-seen representatives over all input lists,
sorts the score dict items by score descending (stably, i.e. by `rrfRel`
on position-tagged items), and rebuilds each result from its first-seen
representative with `similarity` replaced by the fused score. -/
def reciprocal_rank_fusion (search_results_list : List (List SearchResult))
    (k : Nat := 60) : List SearchResult :=
  let st := procAll k ([], []) search_results_list
  let sorted_chunks := (List.insertionSort rrfRel (enumFrom 0 st.1)).map Prod.snd
  sorted_chunks.map (fun cs =>
    match lookupA st.2 cs.1 with
    | some r => { r with similarity := cs.2 }
    | none => dummyResult)

/-- Embedding of `hybrid_search` (src/tools.py lines 341-430).

Channel backends are the same oracles as in the channel embeddings; both
channels catch their own errors internally so the `isinstance(_, Exception)`
arms and the outer `except` fallback of the source are dead code here.
The `text_weight` parameter is accepted and ignored, as in the source. -/
def hybrid_search (rm : String → String → Bool) (st : Settings)
    (semBackend txtBackend : Except MongoErr (List ChunkDoc))
    (match_count : Option Nat) (_text_weight : Option ℚ)
    (source_filter : Option String) : List SearchResult :=
  let mc0 := match_count.getD st.default_match_count
  let mc := min mc0 st.max_match_count
  let fetch_count := mc * 2
  let semantic_results := semantic_search rm st semBackend (some fetch_count) source_filter
  let text_results := text_search rm st txtBackend (some fetch_count) source_filter
  if semantic_results = [] ∧ text_results = [] then
    []
  else
    let merged_results := reciprocal_rank_fusion [semantic_results, text_results] 60
    merged_results.take mc

/-! ### Specification vocabulary for RRF -/

/-- Append a key if it is not already present (first-seen order). -/
def insKey (ks : List String) (c : String) : List String :=
  if c ∈ ks then ks else ks ++ [c]

/-- The distinct elements of a list in order of first appearance. -/
def dedupFirst (l : List String) : List String := l.foldl insKey []

/-- Index of the first occurrence of `c` in `l` (`l.length` if absent). -/
def firstSeenIdx : List String → String → Nat
  | [], _ => 0
  | a :: t, c => if a = c then 0 else firstSeenIdx t c + 1

/-- All `(rank, result)` pairs processed by the fusion loops, in processing
order. -/
def flatPairs (lists : List (List SearchResult)) : List (Nat × SearchResult) :=
  (lists.map (enumFrom 0)).flatten

/-- The chunk ids of a pair list, in processing order. -/
def pids (P : List (Nat × SearchResult)) : List String :=
  P.map (fun p => p.2.chunk_id)

/-- Total RRF score contributed to `c` by the pairs `P`. -/
def psum (k : Nat) (c : String) (P : List (Nat × SearchResult)) : ℚ :=
  (P.map (fun p => if p.2.chunk_id = c then 1 / ((k : ℚ) + (p.1 : ℚ)) else 0)).sum

/-- The result component of the first pair in `P` whose chunk id is `c`. -/
def firstWith (c : String) : List (Nat × SearchResult) → Option SearchResult
  | [] => none
  | p :: t => if p.2.chunk_id = c then some p.2 else firstWith c t

/-- The first result with chunk id `c` in a plain result list. -/
def firstRepr (c : String) : List SearchResult → Option SearchResult
  | [] => none
  | r :: t => if r.chunk_id = c then some r else firstRepr c t

/-- The chunk ids of the concatenation of all input lists, in processing
order (first-seen order is first occurrence in this list). -/
def joinIds (lists : List (List SearchResult)) : List String :=
  lists.flatten.map SearchResult.chunk_id

/-- The canonical form of the fusion state after processing the pairs `P`. -/
def canonState (k : Nat) (P : List (Nat × SearchResult)) : RRFState :=
  ((dedupFirst (pids P)).map (fun c => (c, psum k c P)),
   (dedupFirst (pids P)).map (fun c => (c, (firstWith c P).getD dummyResult)))

/-- One fusion step on a `(rank, result)` pair. -/
def rrfStep (k : Nat) (st : RRFState) (p : Nat × SearchResult) : RRFState :=
  rrfUpdate k st p.1 p.2

lemma procFrom_eq_foldl (k : Nat) (st : RRFState) (n : Nat) (l : List SearchResult) :
    procFrom k st n l = (enumFrom n l).foldl (rrfStep k) st := by
  induction l generalizing st n with
  | nil => rfl
  | cons r rs ih => simp [procFrom, enumFrom, ih, rrfStep]

lemma flatPairs_cons (l : List SearchResult) (ls : List (List SearchResult)) :
    flatPairs (l :: ls) = enumFrom 0 l ++ flatPairs ls := by
  simp [flatPairs]

lemma procAll_eq_foldl (k : Nat) (st : RRFState) (ls : List (List SearchResult)) :
    procAll k st ls = (flatPairs ls).foldl (rrfStep k) st := by
  induction ls generalizing st with
  | nil => rfl
  | cons l ls ih =>
    simp [procAll, ih, flatPairs_cons, List.foldl_append, procFrom_eq_foldl]

/-! ### Lemmas about the specification vocabulary -/

lemma mem_insKey (ks : List String) (b c : String) :
    b ∈ insKey ks c ↔ b ∈ ks ∨ b = c := by
  unfold insKey
  split
  · next h => constructor
              · exact fun hb => Or.inl hb
              · rintro (hb | rfl)
                · exact hb
                · exact h
  · simp

lemma mem_foldl_insKey (l : List String) (acc : List String) (b : String) :
    b ∈ l.foldl insKey acc ↔ b ∈ acc ∨ b ∈ l := by
  induction l generalizing acc with
  | nil => simp
  | cons a t ih =>
    simp only [List.foldl_cons, ih, mem_insKey, List.mem_cons]
    tauto

lemma mem_dedupFirst (l : List String) (b : String) :
    b ∈ dedupFirst l ↔ b ∈ l := by
  simp [dedupFirst, mem_foldl_insKey]

lemma nodup_insKey (ks : List String) (c : String) (h : ks.Nodup) :
    (insKey ks c).Nodup := by
  unfold insKey
  split
  · exact h
  · next hc => simp [List.nodup_append, h, hc]

lemma nodup_foldl_insKey (l : List String) (acc : List String) (h : acc.Nodup) :
    (l.foldl insKey acc).Nodup := by
  induction l generalizing acc with
  | nil => exact h
  | cons a t ih => exact ih _ (nodup_insKey _ _ h)

lemma nodup_dedupFirst (l : List String) : (dedupFirst l).Nodup :=
  nodup_foldl_insKey l [] List.nodup_nil

lemma dedupFirst_append_singleton (l : List String) (c : String) :
    dedupFirst (l ++ [c]) = insKey (dedupFirst l) c := by
  simp [dedupFirst, List.foldl_append]

lemma firstSeenIdx_lt_length {l : List String} {c : String} (h : c ∈ l) :
    firstSeenIdx l c < l.length := by
  induction l with
  | nil => cases h
  | cons a t ih =>
    by_cases hac : a = c
    · simp [firstSeenIdx, hac]
    · rcases List.mem_cons.mp h with rfl | ht
      · exact absurd rfl hac
      · simpa [firstSeenIdx, hac] using ih ht

lemma firstSeenIdx_append_of_mem {l : List String} {c : String} (t : List String)
    (h : c ∈ l) : firstSeenIdx (l ++ t) c = firstSeenIdx l c := by
  induction l with
  | nil => cases h
  | cons a l ih =>
    by_cases hac : a = c
    · simp [firstSeenIdx, hac]
    · rcases List.mem_cons.mp h with rfl | hl
      · exact absurd rfl hac
      · simp [firstSeenIdx, hac, ih hl]

lemma firstSeenIdx_append_singleton_self {l : List String} {c : String} (h : c ∉ l) :
    firstSeenIdx (l ++ [c]) c = l.length := by
  induction l with
  | nil => simp [firstSeenIdx]
  | cons a l ih =>
    have hac : a ≠ c := fun e => h (e ▸ List.mem_cons_self a l)
    simp [firstSeenIdx, hac, ih (fun hl => h (List.mem_cons_of_mem a hl))]

/-- Along `dedupFirst l`, first-occurrence indices into `l` are strictly
increasing: `dedupFirst` lists keys in first-seen order. -/
lemma pairwise_firstSeenIdx_dedupFirst (l : List String) :
    (dedupFirst l).Pairwise (fun a b => firstSeenIdx l a < firstSeenIdx l b) := by
  induction l using List.reverseRecOn with
  | nil => simp [dedupFirst]
  | append_singleton l c ih =>
    rw [dedupFirst_append_singleton]
    unfold insKey
    split
    · next hmem =>
      refine ih.imp_of_mem ?_
      intro a b ha hb hab
      rw [firstSeenIdx_append_of_mem _ ((mem_dedupFirst l a).mp ha),
        firstSeenIdx_append_of_mem _ ((mem_dedupFirst l b).mp hb)]
      exact hab
    · next hmem =>
      have hcl : c ∉ l := fun h => hmem ((mem_dedupFirst l c).mpr h)
      rw [List.pairwise_append]
      refine ⟨?_, List.pairwise_singleton _ _, ?_⟩
      · refine ih.imp_of_mem ?_
        intro a b ha hb hab
        rw [firstSeenIdx_append_of_mem _ ((mem_dedupFirst l a).mp ha),
          firstSeenIdx_append_of_mem _ ((mem_dedupFirst l b).mp hb)]
        exact hab
      · intro a ha b hb
        rw [List.mem_singleton] at hb
        subst hb
        have hal : a ∈ l := (mem_dedupFirst l a).mp ha
        rw [firstSeenIdx_append_of_mem _ hal, firstSeenIdx_append_singleton_self hcl]
        exact firstSeenIdx_lt_length hal

lemma psum_append (k : Nat) (c : String) (P Q : List (Nat × SearchResult)) :
    psum k c (P ++ Q) = psum k c P + psum k c Q := by
  simp [psum]

lemma psum_singleton (k : Nat) (c : String) (p : Nat × SearchResult) :
    psum k c [p] = if p.2.chunk_id = c then 1 / ((k : ℚ) + (p.1 : ℚ)) else 0 := by
  simp [psum]

lemma psum_eq_zero_of_not_mem {k : Nat} {c : String} {P : List (Nat × SearchResult)}
    (h : c ∉ pids P) : psum k c P = 0 := by
  induction P with
  | nil => rfl
  | cons p t ih =>
    have h1 : p.2.chunk_id ≠ c := fun e => h (e ▸ List.mem_cons_self _ _)
    have h2 : c ∉ pids t := fun ht => h (List.mem_cons_of_mem _ ht)
    simp [psum, h1, ih h2, pids] at *
    simpa [psum, h1] using ih h2

lemma firstWith_append (c : String) (P Q : List (Nat × SearchResult)) :
    firstWith c (P ++ Q) =
      match firstWith c P with
      | some x => some x
      | none => firstWith c Q := by
  induction P with
  | nil => simp [firstWith]
  | cons p t ih =>
    by_cases h : p.2.chunk_id = c
    · simp [firstWith, h]
    · simp [firstWith, h, ih]

lemma firstWith_eq_none_of_not_mem {c : String} {P : List (Nat × SearchResult)}
    (h : c ∉ pids P) : firstWith c P = none := by
  induction P with
  | nil => rfl
  | cons p t ih =>
    have h1 : p.2.chunk_id ≠ c := fun e => h (e ▸ List.mem_cons_self _ _)
    have h2 : c ∉ pids t := fun ht => h (List.mem_cons_of_mem _ ht)
    simp [firstWith, h1, ih h2]

lemma firstWith_isSome_of_mem {c : String} {P : List (Nat × SearchResult)}
    (h : c ∈ pids P) : ∃ r, firstWith c P = some r ∧ r.chunk_id = c := by
  induction P with
  | nil => cases h
  | cons p t ih =>
    by_cases h1 : p.2.chunk_id = c
    · exact ⟨p.2, by simp [firstWith, h1], h1⟩
    · rcases List.mem_cons.mp h with e | ht
      · exact absurd e.symm h1
      · obtain ⟨r, hr, hrc⟩ := ih ht
        exact ⟨r, by simp [firstWith, h1, hr], hrc⟩

lemma bumpA_canon (ks : List String) (f : String → ℚ) (c : String) (q : ℚ)
    (hnd : ks.Nodup) (hc : c ∈ ks) :
    bumpA (ks.map (fun c' => (c', f c'))) c q =
      ks.map (fun c' => (c', f c' + if c' = c then q else 0)) := by
  induction ks with
  | nil => cases hc
  | cons a t ih =>
    by_cases hac : a = c
    · subst hac
      have hat : a ∉ t := (List.nodup_cons.mp hnd).1
      simp only [List.map_cons, bumpA, if_pos rfl]
      have htail : List.map (fun c' => (c', f c' + if c' = a then q else 0)) t =
          List.map (fun c' => (c', f c')) t := by
        refine List.map_congr_left ?_
        intro b hb
        have hba : ¬(b = a) := fun e => hat (e ▸ hb)
        rw [if_neg hba, add_zero]
      simp [htail]
    · rcases List.mem_cons.mp hc with e | ht
      · exact absurd e.symm hac
      · simp only [List.map_cons, bumpA, if_neg hac]
        rw [ih (List.nodup_cons.mp hnd).2 ht, add_zero]

lemma lookupA_canon {β : Type} (ks : List String) (g : String → β) (c : String)
    (hc : c ∈ ks) :
    lookupA (ks.map (fun c' => (c', g c'))) c = some (g c) := by
  induction ks with
  | nil => cases hc
  | cons a t ih =>
    by_cases hac : a = c
    · subst hac; simp [lookupA]
    · rcases List.mem_cons.mp hc with e | ht
      · exact absurd e.symm hac
      · simp [lookupA, hac, ih ht]

lemma map_fst_canon {β : Type} (ks : List String) (g : String → β) :
    (ks.map (fun c' => (c', g c'))).map Prod.fst = ks := by
  induction ks with
  | nil => rfl
  | cons a t ih => simp only [List.map_cons, ih]

/-- The central fusion-loop invariant: folding the loop body over any pair
list from the empty state yields the canonical state. -/
lemma foldl_rrfStep_canon (k : Nat) (P : List (Nat × SearchResult)) :
    P.foldl (rrfStep k) ([], []) = canonState k P := by
  induction P using List.reverseRecOn with
  | nil => simp [canonState, dedupFirst, pids]
  | append_singleton P p ih =>
    rw [List.foldl_append, ih]
    have hstep : List.foldl (rrfStep k) (canonState k P) [p] =
        rrfStep k (canonState k P) p := rfl
    rw [hstep]
    have hpids : pids (P ++ [p]) = pids P ++ [p.2.chunk_id] := by simp [pids]
    have hknd := nodup_dedupFirst (pids P)
    by_cases hmem : p.2.chunk_id ∈ dedupFirst (pids P)
    · have hmemP : p.2.chunk_id ∈ pids P := (mem_dedupFirst _ _).mp hmem
      have hkeys : dedupFirst (pids (P ++ [p])) = dedupFirst (pids P) := by
        rw [hpids, dedupFirst_append_singleton]
        unfold insKey
        rw [if_pos hmem]
      simp only [rrfStep, rrfUpdate, canonState]
      rw [map_fst_canon, if_pos hmem, hkeys, Prod.mk.injEq]
      refine ⟨?_, ?_⟩
      · rw [bumpA_canon _ _ _ _ hknd hmem]
        refine List.map_congr_left ?_
        intro b _
        rw [psum_append, psum_singleton]
        congr 1
        by_cases hb : b = p.2.chunk_id
        · simp [hb]
        · have hbp : ¬(p.2.chunk_id = b) := fun e => hb e.symm
          simp [hb, hbp]
      · refine (List.map_congr_left ?_).symm
        intro b hb
        rw [firstWith_append]
        obtain ⟨r, hr, _⟩ := firstWith_isSome_of_mem ((mem_dedupFirst _ _).mp hb)
        rw [hr]
    · have hmemP : p.2.chunk_id ∉ pids P := fun h => hmem ((mem_dedupFirst _ _).mpr h)
      have hkeys : dedupFirst (pids (P ++ [p])) = dedupFirst (pids P) ++ [p.2.chunk_id] := by
        rw [hpids, dedupFirst_append_singleton]
        unfold insKey
        rw [if_neg hmem]
      simp only [rrfStep, rrfUpdate, canonState]
      rw [map_fst_canon, if_neg hmem, hkeys, Prod.mk.injEq]
      refine ⟨?_, ?_⟩
      · rw [List.map_append]
        congr 1
        · refine List.map_congr_left ?_
          intro b hb
          have hbP : b ∈ pids P := (mem_dedupFirst _ _).mp hb
          have hbc : ¬(p.2.chunk_id = b) := fun e => hmemP (e ▸ hbP)
          rw [psum_append, psum_singleton, if_neg hbc, add_zero]
        · rw [List.map_singleton, psum_append, psum_singleton,
            psum_eq_zero_of_not_mem hmemP, if_pos rfl, zero_add]
      · rw [List.map_append]
        congr 1
        · refine List.map_congr_left ?_
          intro b hb
          rw [firstWith_append]
          obtain ⟨r, hr, _⟩ :=
            firstWith_isSome_of_mem ((mem_dedupFirst _ _).mp hb)
          rw [hr]
        · rw [List.map_singleton, firstWith_append,
            firstWith_eq_none_of_not_mem hmemP]
          simp [firstWith]

/-- The fusion state after the two processing loops, in canonical form. -/
lemma procAll_canon (k : Nat) (lists : List (List SearchResult)) :
    procAll k ([], []) lists = canonState k (flatPairs lists) := by
  rw [procAll_eq_foldl, foldl_rrfStep_canon]

lemma enumFrom_map_snd {α : Type} (n : Nat) (l : List α) :
    (enumFrom n l).map Prod.snd = l := by
  induction l generalizing n with
  | nil => rfl
  | cons a t ih => simp [enumFrom, ih]

lemma pids_flatPairs (lists : List (List SearchResult)) :
    pids (flatPairs lists) = joinIds lists := by
  induction lists with
  | nil => rfl
  | cons l ls ih =>
    rw [flatPairs_cons]
    simp only [pids, joinIds] at *
    rw [List.map_append, ih]
    simp only [List.flatten_cons, List.map_append]
    congr 1
    have : (fun p : Nat × SearchResult => p.2.chunk_id) =
        SearchResult.chunk_id ∘ Prod.snd := rfl
    rw [this, ← List.map_map, enumFrom_map_snd]

lemma psum_flatPairs (k : Nat) (c : String) (lists : List (List SearchResult)) :
    psum k c (flatPairs lists) = (lists.map (fun l => psum k c (enumFrom 0 l))).sum := by
  induction lists with
  | nil => rfl
  | cons l ls ih => rw [flatPairs_cons, psum_append, ih]; simp

lemma psum_enumFrom (k : Nat) (c : String) (n : Nat) (l : List SearchResult)
    (hnd : (l.map SearchResult.chunk_id).Nodup) :
    psum k c (enumFrom n l) =
      if c ∈ l.map SearchResult.chunk_id
      then 1 / ((k : ℚ) + ((n + firstSeenIdx (l.map SearchResult.chunk_id) c : ℕ) : ℚ))
      else 0 := by
  induction l generalizing n with
  | nil => simp [enumFrom, psum]
  | cons r t ih =>
    simp only [List.map_cons, List.nodup_cons] at hnd
    by_cases hrc : r.chunk_id = c
    · subst hrc
      have hnt : r.chunk_id ∉ pids (enumFrom (n + 1) t) := by
        simp only [pids]
        have : (fun p : Nat × SearchResult => p.2.chunk_id) =
            SearchResult.chunk_id ∘ Prod.snd := rfl
        rw [this, ← List.map_map, enumFrom_map_snd]
        exact hnd.1
      simp only [enumFrom, psum, List.map_cons, List.sum_cons, if_pos rfl]
      have hz : psum k r.chunk_id (enumFrom (n + 1) t) = 0 :=
        psum_eq_zero_of_not_mem hnt
      simp only [psum] at hz
      rw [hz, add_zero]
      simp [firstSeenIdx]
    · simp only [enumFrom, psum, List.map_cons, List.sum_cons, if_neg hrc, zero_add]
      have := ih (n + 1) hnd.2
      simp only [psum] at this
      rw [this]
      by_cases hct : c ∈ t.map SearchResult.chunk_id
      · rw [if_pos hct, if_pos (List.mem_cons_of_mem _ hct)]
        have hfc : ¬(r.chunk_id = c) := hrc
        congr 2
        simp only [firstSeenIdx, if_neg hfc]
        push_cast
        ring
      · rw [if_neg hct]
        have : ¬(c ∈ r.chunk_id :: t.map SearchResult.chunk_id) := by
          simp only [List.mem_cons, not_or]
          exact ⟨fun e => hrc e.symm, hct⟩
        rw [if_neg this]

lemma firstWith_enumFrom (c : String) (n : Nat) (l : List SearchResult) :
    firstWith c (enumFrom n l) = firstRepr c l := by
  induction l generalizing n with
  | nil => rfl
  | cons r t ih =>
    by_cases h : r.chunk_id = c
    · simp [enumFrom, firstWith, firstRepr, h]
    · simp [enumFrom, firstWith, firstRepr, h, ih]

lemma firstRepr_append (c : String) (l t : List SearchResult) :
    firstRepr c (l ++ t) =
      match firstRepr c l with
      | some x => some x
      | none => firstRepr c t := by
  induction l with
  | nil => simp [firstRepr]
  | cons r l ih =>
    by_cases h : r.chunk_id = c
    · simp [firstRepr, h]
    · simp [firstRepr, h, ih]

lemma firstWith_flatPairs (c : String) (lists : List (List SearchResult)) :
    firstWith c (flatPairs lists) = firstRepr c lists.flatten := by
  induction lists with
  | nil => rfl
  | cons l ls ih =>
    rw [flatPairs_cons, firstWith_append, List.flatten_cons, firstRepr_append,
      firstWith_enumFrom, ih]

lemma le_fst_of_mem_enumFrom {α : Type} {l : List α} :
    ∀ (m : Nat) (p : Nat × α), p ∈ enumFrom m l → m ≤ p.1 := by
  induction l with
  | nil => intro m p hp; cases hp
  | cons b s ihs =>
    intro m p hp
    rcases List.mem_cons.mp hp with rfl | hp'
    · exact Nat.le_refl _
    · exact Nat.le_trans (Nat.le_succ m) (ihs (m + 1) p hp')

lemma pairwise_fst_lt_enumFrom {α : Type} (n : Nat) (l : List α) :
    (enumFrom n l).Pairwise (fun a b => a.1 < b.1) := by
  induction l generalizing n with
  | nil => exact List.Pairwise.nil
  | cons a t ih =>
    refine List.Pairwise.cons ?_ (ih (n + 1))
    intro p hp
    exact Nat.lt_of_lt_of_le (Nat.lt_succ_self n) (le_fst_of_mem_enumFrom (n + 1) p hp)

lemma mem_enumFrom {α : Type} {l : List α} :
    ∀ (n : Nat) (q : Nat × α), q ∈ enumFrom n l → n ≤ q.1 ∧ l[q.1 - n]? = some q.2 := by
  induction l with
  | nil => intro n q hq; cases hq
  | cons a t ih =>
    intro n q hq
    rcases List.mem_cons.mp hq with rfl | hq'
    · simp
    · obtain ⟨h1, h2⟩ := ih (n + 1) q hq'
      refine ⟨Nat.le_trans (Nat.le_succ n) h1, ?_⟩
      have hq1 : q.1 - n = (q.1 - (n + 1)) + 1 := by omega
      rw [hq1]
      simpa using h2

lemma mem_enumFrom_zero {α : Type} {p : Nat × α} {l : List α}
    (h : p ∈ enumFrom 0 l) : l[p.1]? = some p.2 := by
  simpa using (mem_enumFrom 0 p h).2

/-- The property C1 asserts of `reciprocal_rank_fusion` at `k = 60`:
(a) every `chunk_id` occurring in any input list occurs exactly once in the
output and nothing else occurs; (b) each output's `similarity` is the sum
of `1/(60 + r)` over every input list containing its `chunk_id`, `r` being
the id's 0-indexed rank there; (c) the output is sorted by fused score
descending with ties broken by first-seen order across the concatenated
inputs; (d) each output carries all fields of its first-seen
representative, with only the score replaced. -/
def RRFClaim (lists : List (List SearchResult)) : Prop :=
  (∀ c : String, ((reciprocal_rank_fusion lists 60).map SearchResult.chunk_id).count c
      = if c ∈ joinIds lists then 1 else 0) ∧
  (∀ r ∈ reciprocal_rank_fusion lists 60, r.similarity =
      (lists.map (fun l =>
        if r.chunk_id ∈ l.map SearchResult.chunk_id
        then 1 / ((60 : ℚ) + (firstSeenIdx (l.map SearchResult.chunk_id) r.chunk_id : ℚ))
        else 0)).sum) ∧
  (reciprocal_rank_fusion lists 60).Pairwise (fun a b =>
      b.similarity ≤ a.similarity ∧
      (a.similarity = b.similarity →
        firstSeenIdx (joinIds lists) a.chunk_id < firstSeenIdx (joinIds lists) b.chunk_id)) ∧
  (∀ r ∈ reciprocal_rank_fusion lists 60,
      ∃ rep, firstRepr r.chunk_id lists.flatten = some rep ∧
        r = { rep with similarity := r.similarity })

/-- C1: reciprocal rank fusion deduplicates by `chunk_id`, sums `1/(60+r)`
contributions across lists, sorts by fused score descending with
first-seen tie-break, and copies all other fields from the first-seen
representative. -/
theorem rrf_spec (lists : List (List SearchResult))
    (hnd : ∀ l ∈ lists, (l.map SearchResult.chunk_id).Nodup) : RRFClaim lists := by
  classical
  set ks := dedupFirst (joinIds lists) with hks
  set S : String → ℚ := fun c => psum 60 c (flatPairs lists) with hS
  set R : String → SearchResult :=
    fun c => (firstWith c (flatPairs lists)).getD dummyResult with hR
  have hout : reciprocal_rank_fusion lists 60 =
      ((List.insertionSort rrfRel (enumFrom 0 (ks.map (fun c => (c, S c))))).map
        Prod.snd).map (fun cs =>
          match lookupA (ks.map (fun c => (c, R c))) cs.1 with
          | some r => { r with similarity := cs.2 }
          | none => dummyResult) := by
    simp only [reciprocal_rank_fusion, procAll_canon, canonState, pids_flatPairs, hks, hS, hR]
  set scoresL := ks.map (fun c => (c, S c)) with hscoresL
  set sortL := List.insertionSort rrfRel (enumFrom 0 scoresL) with hsortL
  have hperm : sortL.Perm (enumFrom 0 scoresL) := List.perm_insertionSort rrfRel _
  have hsorted : sortL.Pairwise rrfRel := List.sorted_insertionSort rrfRel _
  have hknodup : ks.Nodup := nodup_dedupFirst _
  have hmemks : ∀ c, c ∈ ks ↔ c ∈ joinIds lists := fun c => mem_dedupFirst _ c
  have hmempids : ∀ c, c ∈ pids (flatPairs lists) ↔ c ∈ joinIds lists := by
    intro c; rw [pids_flatPairs]
  -- facts about each element of the sorted list
  have hElem : ∀ x ∈ sortL, ∃ c, x.1 < ks.length ∧ ks[x.1]? = some c ∧
      x.2 = (c, S c) ∧ (R c).chunk_id = c := by
    intro x hx
    have hx' : x ∈ enumFrom 0 scoresL := hperm.mem_iff.mp hx
    have hget : scoresL[x.1]? = some x.2 := mem_enumFrom_zero hx'
    rw [hscoresL, List.getElem?_map] at hget
    cases hksx : ks[x.1]? with
    | none => rw [hksx] at hget; cases hget
    | some c =>
      rw [hksx] at hget
      have hget2 : (c, S c) = x.2 := by simpa using hget
      obtain ⟨hlt, _⟩ := List.getElem?_eq_some.mp hksx
      have hcks : c ∈ ks := by
        obtain ⟨h1, h2⟩ := List.getElem?_eq_some.mp hksx
        exact h2 ▸ List.getElem_mem h1
      obtain ⟨r0, hr0, hr0c⟩ := firstWith_isSome_of_mem
        ((hmempids c).mpr ((hmemks c).mp hcks))
      refine ⟨c, hlt, rfl, hget2.symm, ?_⟩
      rw [hR]
      simp only [hr0, Option.getD_some]
      exact hr0c
  have hBuild : ∀ x ∈ sortL,
      (match lookupA (ks.map (fun c => (c, R c))) x.2.1 with
        | some r => { r with similarity := x.2.2 }
        | none => dummyResult) = { R x.2.1 with similarity := x.2.2 } ∧ x.2.1 ∈ ks := by
    intro x hx
    obtain ⟨c, _, hksx, hx2, _⟩ := hElem x hx
    have hcks : c ∈ ks := by
      obtain ⟨h1, h2⟩ := List.getElem?_eq_some.mp hksx
      exact h2 ▸ List.getElem_mem h1
    rw [hx2]
    refine ⟨?_, hcks⟩
    rw [lookupA_canon ks R c hcks]
  -- the output, rewritten elementwise
  have hout2 : reciprocal_rank_fusion lists 60 =
      sortL.map (fun x => { R x.2.1 with similarity := x.2.2 }) := by
    rw [hout, List.map_map]
    refine List.map_congr_left ?_
    intro x hx
    exact (hBuild x hx).1
  -- chunk ids of the output are exactly ks, as a permutation
  have hids : (reciprocal_rank_fusion lists 60).map SearchResult.chunk_id =
      sortL.map (fun x => x.2.1) := by
    rw [hout2, List.map_map]
    refine List.map_congr_left ?_
    intro x hx
    obtain ⟨c, _, _, hx2, hRc⟩ := hElem x hx
    simp only [Function.comp]
    rw [hx2]
    exact hRc
  have hidsperm : (sortL.map (fun x => x.2.1)).Perm ks := by
    refine (hperm.map _).trans ?_
    have h1 : (enumFrom 0 scoresL).map (fun x : Nat × (String × ℚ) => x.2.1) =
        (((enumFrom 0 scoresL).map Prod.snd).map Prod.fst) := by
      rw [List.map_map]; rfl
    rw [h1, enumFrom_map_snd, hscoresL, map_fst_canon]
  refine ⟨?_, ?_, ?_, ?_⟩
  -- (a) exact multiplicity
  · intro c
    rw [hids, hidsperm.count_eq]
    by_cases hc : c ∈ joinIds lists
    · rw [if_pos hc]
      exact List.count_eq_one_of_mem hknodup ((hmemks c).mpr hc)
    · rw [if_neg hc]
      exact List.count_eq_zero_of_not_mem (fun h => hc ((hmemks c).mp h))
  -- (b) fused score is the claimed sum
  · intro r hr
    rw [hout2] at hr
    obtain ⟨x, hx, hxr⟩ := List.mem_map.mp hr
    obtain ⟨c, _, _, hx2, hRc⟩ := hElem x hx
    have hrsim : r.similarity = S c := by rw [← hxr, hx2]
    have hrid : r.chunk_id = c := by rw [← hxr, hx2]; exact hRc
    rw [hrsim, hrid]
    simp only [hS]
    rw [psum_flatPairs]
    refine congrArg List.sum (List.map_congr_left ?_)
    intro l hl
    rw [psum_enumFrom 60 c 0 l (hnd l hl)]
    simp
  -- (c) sorted descending with first-seen tie-break
  · rw [hout2, List.pairwise_map]
    have hfstnodup : (sortL.map Prod.fst).Nodup := by
      rw [(hperm.map Prod.fst).nodup_iff]
      have : ((enumFrom 0 scoresL).map Prod.fst).Pairwise (· < ·) :=
        List.pairwise_map.mpr (pairwise_fst_lt_enumFrom 0 scoresL)
      exact this.imp Nat.ne_of_lt
    have hfstne : sortL.Pairwise (fun x y => x.1 ≠ y.1) :=
      List.pairwise_map.mp hfstnodup
    have hksPW := pairwise_firstSeenIdx_dedupFirst (joinIds lists)
    rw [List.pairwise_iff_getElem] at hksPW
    refine (hsorted.and hfstne).imp_of_mem ?_
    intro x y hx hy hxy
    obtain ⟨hrel, hne⟩ := hxy
    obtain ⟨c, hcl, hcks, hx2, hRc⟩ := hElem x hx
    obtain ⟨d, hdl, hdks, hy2, hRd⟩ := hElem y hy
    have hxsim : ({ R x.2.1 with similarity := x.2.2 } : SearchResult).similarity = x.2.2 := rfl
    have hysim : ({ R y.2.1 with similarity := y.2.2 } : SearchResult).similarity = y.2.2 := rfl
    constructor
    · rcases hrel with hlt | ⟨heq, _⟩
      · rw [hxsim, hysim]; exact le_of_lt hlt
      · rw [hxsim, hysim, heq]
    · intro hsimeq
      rw [hxsim, hysim] at hsimeq
      rcases hrel with hlt | ⟨_, hle⟩
      · rw [hsimeq] at hlt; exact absurd hlt (lt_irrefl _)
      · have hidx : x.1 < y.1 := lt_of_le_of_ne hle hne
        have hcid : ({ R x.2.1 with similarity := x.2.2 } : SearchResult).chunk_id = c := by
          rw [hx2]; exact hRc
        have hdid : ({ R y.2.1 with similarity := y.2.2 } : SearchResult).chunk_id = d := by
          rw [hy2]; exact hRd
        rw [hcid, hdid]
        have hcv : ks[x.1] = c := by
          obtain ⟨h1, h2⟩ := List.getElem?_eq_some.mp hcks; exact h2
        have hdv : ks[y.1] = d := by
          obtain ⟨h1, h2⟩ := List.getElem?_eq_some.mp hdks; exact h2
        have := hksPW x.1 y.1 hcl hdl hidx
        rw [hcv, hdv] at this
        exact this
  -- (d) fields come from the first-seen representative
  · intro r hr
    rw [hout2] at hr
    obtain ⟨x, hx, hxr⟩ := List.mem_map.mp hr
    obtain ⟨c, _, hcks', hx2, hRc⟩ := hElem x hx
    have hcks : c ∈ ks := by
      obtain ⟨h1, h2⟩ := List.getElem?_eq_some.mp hcks'
      exact h2 ▸ List.getElem_mem h1
    obtain ⟨rep, hrep, hrepc⟩ := firstWith_isSome_of_mem
      ((hmempids c).mpr ((hmemks c).mp hcks))
    have hrid : r.chunk_id = c := by rw [← hxr, hx2]; exact hRc
    refine ⟨rep, ?_, ?_⟩
    · rw [hrid, ← firstWith_flatPairs, hrep]
    · have hRrep : R c = rep := by rw [hR]; simp [hrep]
      rw [← hxr, hx2]
      simp [hRrep]

/-! ### Concrete inputs for the RRF witness -/

def w1a : SearchResult :=
  { chunk_id := "a", document_id := "d1", content := "alpha", similarity := 9/10,
    metadata := { page_numbers := some [1] }, document_title := "T1", document_source := "s1.pdf" }

def w1b : SearchResult :=
  { chunk_id := "b", document_id := "d2", content := "beta", similarity := 8/10,
    metadata := { page_numbers := none }, document_title := "T2", document_source := "s2.pdf" }

def w1c : SearchResult :=
  { chunk_id := "c", document_id := "d3", content := "gamma", similarity := 7/10,
    metadata := { page_numbers := some [2, 3] }, document_title := "T3", document_source := "s3.pdf" }

def w1Lists : List (List SearchResult) := [[w1a, w1b], [w1b, w1c]]

/-- Witness for C1 at a concrete pair of overlapping ranked lists. -/
theorem rrf_spec_witness :
    (∀ l ∈ w1Lists, (l.map SearchResult.chunk_id).Nodup) ∧ RRFClaim w1Lists :=
  ⟨by decide, rrf_spec w1Lists (by decide)⟩

/-! ### C3: hybrid search orchestration -/

/-- C3: `hybrid_search` clamps `match_count` to the configured maximum
before any channel call, invokes both channels requesting `2 ×` the
clamped count with the same source filter, and returns the RRF-fused list
truncated to the clamped count. -/
theorem hybrid_search_orchestration (rm : String → String → Bool) (st : Settings)
    (b1 b2 : Except MongoErr (List ChunkDoc)) (mc : Option Nat) (tw : Option ℚ)
    (sf : Option String) :
    hybrid_search rm st b1 b2 mc tw sf =
      (reciprocal_rank_fusion
        [semantic_search rm st b1
            (some (2 * min (mc.getD st.default_match_count) st.max_match_count)) sf,
         text_search rm st b2
            (some (2 * min (mc.getD st.default_match_count) st.max_match_count)) sf] 60).take
        (min (mc.getD st.default_match_count) st.max_match_count) := by
  simp only [hybrid_search, Nat.mul_comm 2]
  split
  · next h =>
    rw [h.1, h.2]
    rw [show reciprocal_rank_fusion [[], []] 60 = [] from rfl, List.take_nil]
  · rfl

/-! ### C4: source filter soundness -/

lemma firstRepr_mem {c : String} {L : List SearchResult} {x : SearchResult}
    (h : firstRepr c L = some x) : x ∈ L := by
  induction L with
  | nil => cases h
  | cons r t ih =>
    by_cases hrc : r.chunk_id = c
    · simp only [firstRepr, if_pos hrc] at h
      exact (Option.some.inj h) ▸ List.mem_cons_self r t
    · simp only [firstRepr, if_neg hrc] at h
      exact List.mem_cons_of_mem r (ih h)

/-- Every fused result is, up to its replaced score, an element of the
concatenated input lists (for any `k`). -/
lemma rrf_mem_flatten (k : Nat) (lists : List (List SearchResult)) :
    ∀ r ∈ reciprocal_rank_fusion lists k,
      ∃ x, x ∈ lists.flatten ∧ r = { x with similarity := r.similarity } := by
  classical
  set ks := dedupFirst (joinIds lists) with hks
  set S : String → ℚ := fun c => psum k c (flatPairs lists) with hS
  set R : String → SearchResult :=
    fun c => (firstWith c (flatPairs lists)).getD dummyResult with hR
  have hout : reciprocal_rank_fusion lists k =
      ((List.insertionSort rrfRel (enumFrom 0 (ks.map (fun c => (c, S c))))).map
        Prod.snd).map (fun cs =>
          match lookupA (ks.map (fun c => (c, R c))) cs.1 with
          | some r => { r with similarity := cs.2 }
          | none => dummyResult) := by
    simp only [reciprocal_rank_fusion, procAll_canon, canonState, pids_flatPairs, hks, hS, hR]
  intro r hr
  rw [hout] at hr
  obtain ⟨y, hy, hyr⟩ := List.mem_map.mp hr
  obtain ⟨x0, hx0, hx0y⟩ := List.mem_map.mp hy
  have hx0' : x0 ∈ enumFrom 0 (ks.map (fun c => (c, S c))) :=
    (List.perm_insertionSort rrfRel _).mem_iff.mp hx0
  have hget : (ks.map (fun c => (c, S c)))[x0.1]? = some x0.2 := mem_enumFrom_zero hx0'
  rw [List.getElem?_map] at hget
  cases hksx : ks[x0.1]? with
  | none => rw [hksx] at hget; cases hget
  | some c =>
    rw [hksx] at hget
    have hget2 : (c, S c) = x0.2 := by simpa using hget
    have hcks : c ∈ ks := by
      obtain ⟨h1, h2⟩ := List.getElem?_eq_some.mp hksx
      exact h2 ▸ List.getElem_mem h1
    have hcpids : c ∈ pids (flatPairs lists) := by
      rw [pids_flatPairs]
      exact (mem_dedupFirst _ _).mp hcks
    obtain ⟨rep, hrep, hrepc⟩ := firstWith_isSome_of_mem hcpids
    have hRrep : R c = rep := by rw [hR]; simp [hrep]
    have hrepmem : rep ∈ lists.flatten := by
      rw [firstWith_flatPairs] at hrep
      exact firstRepr_mem hrep
    refine ⟨rep, hrepmem, ?_⟩
    rw [← hyr, ← hx0y, ← hget2]
    simp only [lookupA_canon ks R c hcks, hRrep]

lemma mem_matchStage {rm : String → String → Bool} {pat : String}
    {docs : List ChunkDoc} {d : ChunkDoc}
    (h : d ∈ matchStage rm (some pat) docs) : rm pat d.document_source = true := by
  simp only [matchStage, List.mem_filter] at h
  exact h.2

lemma semantic_search_sound {rm : String → String → Bool} {st : Settings}
    {backend : Except MongoErr (List ChunkDoc)} {mc : Option Nat} {pat : String}
    {r : SearchResult} (h : r ∈ semantic_search rm st backend mc (some pat)) :
    rm pat r.document_source = true := by
  simp only [semantic_search] at h
  cases backend with
  | error e => cases h
  | ok docs =>
    obtain ⟨d, hd, hdr⟩ := List.mem_map.mp h
    have hd' : d ∈ matchStage rm (some pat) (docs.take _) := List.mem_of_mem_take hd
    have := mem_matchStage hd'
    rw [← hdr]
    exact this

lemma text_search_sound {rm : String → String → Bool} {st : Settings}
    {backend : Except MongoErr (List ChunkDoc)} {mc : Option Nat} {pat : String}
    {r : SearchResult} (h : r ∈ text_search rm st backend mc (some pat)) :
    rm pat r.document_source = true := by
  simp only [text_search] at h
  cases backend with
  | error e => cases h
  | ok docs =>
    obtain ⟨d, hd, hdr⟩ := List.mem_map.mp h
    have hd' : d ∈ matchStage rm (some pat) (docs.take _) := List.mem_of_mem_take hd
    have := mem_matchStage hd'
    rw [← hdr]
    exact this

/-- C4: with a source filter, every result of `semantic_search`,
`text_search`, and `hybrid_search` (including the fused output) has a
`document_source` accepted by the pattern. -/
theorem source_filter_soundness (rm : String → String → Bool) (st : Settings)
    (b1 b2 : Except MongoErr (List ChunkDoc)) (mc : Option Nat) (tw : Option ℚ)
    (pat : String) (r : SearchResult) :
    (r ∈ semantic_search rm st b1 mc (some pat) → rm pat r.document_source = true) ∧
    (r ∈ text_search rm st b2 mc (some pat) → rm pat r.document_source = true) ∧
    (r ∈ hybrid_search rm st b1 b2 mc tw (some pat) → rm pat r.document_source = true) := by
  refine ⟨fun h => semantic_search_sound h, fun h => text_search_sound h, fun h => ?_⟩
  rw [hybrid_search_orchestration] at h
  have h2 := List.mem_of_mem_take h
  obtain ⟨x, hx, hxr⟩ := rrf_mem_flatten 60 _ _ h2
  simp only [List.flatten_cons, List.flatten_nil, List.append_nil] at hx
  have hsrc : r.document_source = x.document_source := by rw [hxr]
  rw [hsrc]
  rcases List.mem_append.mp hx with hx1 | hx1
  · exact semantic_search_sound hx1
  · exact text_search_sound hx1

def w4doc : ChunkDoc :=
  { chunk_id := "x", document_id := "d", content := "body", similarity := 1/2,
    metadata := { page_numbers := none }, document_title := "T", document_source := "GRR1.pdf" }

def w4rm : String → String → Bool := fun _ s => s = "GRR1.pdf"

/-- Witness for C4 at a concrete backend and filter. -/
theorem source_filter_soundness_witness :
    toSearchResult w4doc ∈
        semantic_search w4rm ⟨10, 50⟩ (Except.ok [w4doc]) (some 5) (some "pat") ∧
      w4rm "pat" (toSearchResult w4doc).document_source = true := by
  have hm : semantic_search w4rm ⟨10, 50⟩ (Except.ok [w4doc]) (some 5) (some "pat") =
      [toSearchResult w4doc] := rfl
  have hmem : toSearchResult w4doc ∈
      semantic_search w4rm ⟨10, 50⟩ (Except.ok [w4doc]) (some 5) (some "pat") := by
    rw [hm]; exact List.mem_singleton.mpr rfl
  exact ⟨hmem,
    (source_filter_soundness w4rm ⟨10, 50⟩ (Except.ok [w4doc]) (Except.ok [])
      (some 5) none "pat" (toSearchResult w4doc)).1 hmem⟩

/-! ### C5: channels fail closed -/

/-- C5: a backend failure of any kind makes `semantic_search` and
`text_search` return the empty list instead of propagating the error. -/
theorem channels_fail_closed (rm : String → String → Bool) (st : Settings)
    (e : MongoErr) (mc : Option Nat) (sf : Option String) :
    semantic_search rm st (Except.error e) mc sf = [] ∧
    text_search rm st (Except.error e) mc sf = [] :=
  ⟨rfl, rfl⟩

/-! ### C9: text_search truncates to twice the clamped count -/

def w9doc1 : ChunkDoc :=
  { chunk_id := "k1", document_id := "d1", content := "one", similarity := 3/4,
    metadata := { page_numbers := none }, document_title := "A", document_source := "a.pdf" }

def w9doc2 : ChunkDoc :=
  { chunk_id := "k2", document_id := "d2", content := "two", similarity := 1/4,
    metadata := { page_numbers := none }, document_title := "B", document_source := "b.pdf" }

/-- C9: `text_search` truncates its output to `2 ×` the clamped
`match_count` (so it can return up to twice as many results as requested),
while `semantic_search` truncates to the clamped `match_count` itself; the
closed conjunct exhibits a run where `match_count = 1` yet `text_search`
returns 2 results and `semantic_search` returns 1. -/
theorem text_search_truncation :
    (∀ (rm : String → String → Bool) (st : Settings) (docs : List ChunkDoc)
        (mc : Option Nat) (sf : Option String),
      (text_search rm st (Except.ok docs) mc sf).length ≤
        2 * min (mc.getD st.default_match_count) st.max_match_count ∧
      (semantic_search rm st (Except.ok docs) mc sf).length ≤
        min (mc.getD st.default_match_count) st.max_match_count) ∧
    (text_search (fun _ _ => true) ⟨10, 50⟩ (Except.ok [w9doc1, w9doc2])
        (some 1) none).length = 2 ∧
    (semantic_search (fun _ _ => true) ⟨10, 50⟩ (Except.ok [w9doc1, w9doc2])
        (some 1) none).length = 1 := by
  refine ⟨fun rm st docs mc sf => ⟨?_, ?_⟩, by decide, by decide⟩
  · simp only [text_search, List.length_map]
    calc (List.take (min (mc.getD st.default_match_count) st.max_match_count * 2) _).length
        ≤ min (mc.getD st.default_match_count) st.max_match_count * 2 :=
          List.length_take_le _ _
      _ = 2 * min (mc.getD st.default_match_count) st.max_match_count := Nat.mul_comm _ _
  · simp only [semantic_search, List.length_map]
    exact List.length_take_le _ _

/-! ### C2: the streaming think-block filter (src/response_filter.py 16-66) -/

/-- The closing marker the filter looks for. -/
def closeMarker : List Char := '<' :: '/' :: 't' :: 'h' :: 'i' :: 'n' :: 'k' :: '>' :: []

/-- Filter states: `"buffering"` (initial) and `"normal"`. -/
inductive FState where
  | buffering
  | normal
  deriving DecidableEq, Repr

/-- Python `str.find`: index of the first occurrence of `pat` in the list,
`none` when absent. -/
def findSub (pat : List Char) : List Char → Option Nat
  | [] => if pat <+: ([] : List Char) then some 0 else none
  | a :: t => if pat <+: (a :: t) then some 0 else (findSub pat t).map (· + 1)

/-- Embedding of `filter_think_streaming`.  In the source, when no marker
is found both the partial-suffix check and the fall-through return the
identical triple `("", text, "buffering")`, so the embedding has a single
`none` branch. -/
def filter_think_streaming (chunk buffer : List Char) (state : FState) :
    List Char × List Char × FState :=
  match state with
  | .normal => (chunk, [], .normal)
  | .buffering =>
    let t := buffer ++ chunk
    match findSub closeMarker t with
    | some i => (t.drop (i + closeMarker.length), [], .normal)
    | none => ([], t, .buffering)

/-- Feed chunks one at a time, accumulating emitted text. -/
def runFrom (emitted buffer : List Char) (st : FState) :
    List (List Char) → List Char × List Char × FState
  | [] => (emitted, buffer, st)
  | c :: cs =>
    let r := filter_think_streaming c buffer st
    runFrom (emitted ++ r.1) r.2.1 r.2.2 cs

/-- Everything the stream produces: all emitted chunks plus the final
buffer flushed at end of stream, starting from state `buffering` with an
empty buffer. -/
def streamOut (chunks : List (List Char)) : List Char :=
  let r := runFrom [] [] .buffering chunks
  r.1 ++ r.2.1

/-- Number of positions at which `pat` occurs in `l`. -/
def occCount (pat l : List Char) : Nat :=
  ((List.range (l.length + 1)).filter (fun i => decide (pat <+: l.drop i))).length

lemma findSub_some {pat : List Char} :
    ∀ {l : List Char} {i : Nat}, findSub pat l = some i →
      (pat <+: l.drop i) ∧ ∀ j, j < i → ¬ pat <+: l.drop j := by
  intro l
  induction l with
  | nil =>
    intro i h
    simp only [findSub] at h
    split at h
    · next hp =>
      cases h
      exact ⟨hp, fun j hj => absurd hj (Nat.not_lt_zero j)⟩
    · cases h
  | cons a t ih =>
    intro i h
    simp only [findSub] at h
    split at h
    · next hp =>
      cases h
      exact ⟨hp, fun j hj => absurd hj (Nat.not_lt_zero j)⟩
    · next hp =>
      cases hfs : findSub pat t with
      | none => rw [hfs] at h; cases h
      | some i' =>
        rw [hfs] at h
        have hi : i' + 1 = i := by simpa using h
        obtain ⟨h1, h2⟩ := ih hfs
        subst hi
        refine ⟨by simpa using h1, ?_⟩
        intro j hj
        cases j with
        | zero => intro hc; rw [List.drop_zero] at hc; exact hp hc
        | succ j' =>
          have hj' : j' < i' := Nat.lt_of_succ_lt_succ hj
          simpa using h2 j' hj'

lemma findSub_none {pat : List Char} (hp : pat ≠ []) :
    ∀ {l : List Char}, findSub pat l = none → ∀ j, ¬ pat <+: l.drop j := by
  intro l
  induction l with
  | nil =>
    intro h j hpre
    rw [List.drop_nil] at hpre
    exact hp (List.prefix_nil.mp hpre)
  | cons a t ih =>
    intro h j hpre
    simp only [findSub] at h
    split at h
    · cases h
    · next hnp =>
      cases hfs : findSub pat t with
      | some i' => rw [hfs] at h; cases h
      | none =>
        cases j with
        | zero => exact hnp (by simpa using hpre)
        | succ j' => exact ih hfs j' (by simpa using hpre)

lemma findSub_isSome_of_occurs {pat : List Char} (hp : pat ≠ [])
    {l : List Char} {j : Nat} (h : pat <+: l.drop j) : findSub pat l ≠ none :=
  fun hn => findSub_none hp hn j h

lemma findSub_le_length {pat : List Char} :
    ∀ {l : List Char} {i : Nat}, findSub pat l = some i → i ≤ l.length := by
  intro l
  induction l with
  | nil =>
    intro i h
    simp only [findSub] at h
    split at h
    · cases h; exact Nat.le_refl 0
    · cases h
  | cons a t ih =>
    intro i h
    simp only [findSub] at h
    split at h
    · cases h; exact Nat.zero_le _
    · cases hfs : findSub pat t with
      | none => rw [hfs] at h; cases h
      | some i' =>
        rw [hfs] at h
        have hi : i' + 1 = i := by simpa using h
        have := ih hfs
        simp only [List.length_cons]
        omega

lemma findSub_bound {pat l : List Char} {i : Nat} (h : findSub pat l = some i) :
    i + pat.length ≤ l.length := by
  have h1 := (findSub_some h).1
  have h2 := h1.length_le
  rw [List.length_drop] at h2
  have h3 := findSub_le_length h
  omega

lemma prefix_append_iff_of_le {pat u : List Char} (v : List Char)
    (hlen : pat.length ≤ u.length) : pat <+: u ++ v ↔ pat <+: u := by
  rw [List.prefix_iff_eq_take, List.prefix_iff_eq_take,
    List.take_append_of_le_length hlen]

lemma findSub_append_some {pat : List Char} (hp : pat ≠ []) :
    ∀ {l : List Char} {i : Nat} (c : List Char),
      findSub pat l = some i → findSub pat (l ++ c) = some i := by
  intro l
  induction l with
  | nil =>
    intro i c h
    simp only [findSub] at h
    split at h
    · next hpre => exact absurd (List.prefix_nil.mp hpre) hp
    · cases h
  | cons a t ih =>
    intro i c h
    simp only [findSub] at h
    split at h
    · next hpre =>
      cases h
      have hc2 : pat <+: a :: (t ++ c) := by
        have := hpre.trans (List.prefix_append (a :: t) c)
        simpa using this
      simp only [List.cons_append, findSub]
      split
      · rfl
      · next hn => exact absurd hc2 hn
    · next hnp =>
      cases hfs : findSub pat t with
      | none => rw [hfs] at h; cases h
      | some i' =>
        rw [hfs] at h
        have hi : i' + 1 = i := by simpa using h
        have hb := findSub_bound hfs
        have hlen : pat.length ≤ (a :: t).length := by
          simp only [List.length_cons]
          omega
        have hnp2 : ¬ pat <+: a :: (t ++ c) := by
          intro hpre
          have h4 : pat <+: (a :: t) ++ c := by simpa using hpre
          exact hnp ((prefix_append_iff_of_le c hlen).mp h4)
        simp only [List.cons_append, findSub]
        split
        · next hyes => exact absurd hyes hnp2
        · rw [show findSub pat (List.append t c) = some i' from ih c hfs]
          simpa using hi

/-- The per-step invariant of the streaming filter: while buffering,
nothing has been emitted, the buffer holds everything processed so far and
contains no marker; once normal, the buffer is empty and the emitted text
is everything after the first marker occurrence. -/
def StreamInv (processed emitted buffer : List Char) (st : FState) : Prop :=
  match st with
  | .buffering => emitted = [] ∧ buffer = processed ∧
      findSub closeMarker processed = none
  | .normal => buffer = [] ∧ ∃ p, findSub closeMarker processed = some p ∧
      emitted = processed.drop (p + closeMarker.length)

lemma closeMarker_ne_nil : closeMarker ≠ [] := by
  intro h
  cases h

lemma stream_step (processed e b : List Char) (st : FState) (c : List Char)
    (h : StreamInv processed e b st) :
    StreamInv (processed ++ c)
      (e ++ (filter_think_streaming c b st).1)
      (filter_think_streaming c b st).2.1
      (filter_think_streaming c b st).2.2 := by
  cases st with
  | normal =>
    obtain ⟨hb, p, hfs, he⟩ := h
    simp only [filter_think_streaming]
    refine ⟨rfl, p, findSub_append_some closeMarker_ne_nil c hfs, ?_⟩
    have hple : p + closeMarker.length ≤ processed.length := findSub_bound hfs
    rw [List.drop_append_of_le_length hple, ← he]
  | buffering =>
    obtain ⟨he, hb, hfs⟩ := h
    simp only [filter_think_streaming]
    cases hfind : findSub closeMarker (b ++ c) with
    | some i =>
      subst hb he
      exact ⟨rfl, i, hfind, by simp⟩
    | none =>
      subst hb he
      exact ⟨by simp, rfl, hfind⟩

lemma runFrom_inv (cs : List (List Char)) :
    ∀ (processed e b : List Char) (st : FState), StreamInv processed e b st →
      StreamInv (processed ++ cs.flatten)
        (runFrom e b st cs).1 (runFrom e b st cs).2.1 (runFrom e b st cs).2.2 := by
  induction cs with
  | nil => intro processed e b st h; simpa using h
  | cons c cs ih =>
    intro processed e b st h
    have h1 := stream_step processed e b st c h
    have h2 := ih (processed ++ c) _ _ _ h1
    rw [List.flatten_cons, ← List.append_assoc]
    exact h2

/-- The property C2 asserts of the streaming filter: for any way of
splitting a stream `S` into chunks, if `S` contains exactly one occurrence
of the closing marker then the emitted text plus the end-of-stream flush
equals `S` with everything up to and including the marker removed, and if
`S` contains no marker the stream is reproduced unmodified. -/
def StreamClaim (chunks : List (List Char)) : Prop :=
  (occCount closeMarker chunks.flatten = 1 →
    ∀ p, closeMarker <+: chunks.flatten.drop p →
      streamOut chunks = chunks.flatten.drop (p + closeMarker.length)) ∧
  (occCount closeMarker chunks.flatten = 0 → streamOut chunks = chunks.flatten)

lemma occCount_zero {pat l : List Char} (hp : pat ≠ [])
    (h : occCount pat l = 0) : ∀ j, ¬ pat <+: l.drop j := by
  intro j hj
  have hjl : j ≤ l.length := by
    by_contra hgt
    push_neg at hgt
    rw [List.drop_eq_nil_of_le (Nat.le_of_lt hgt)] at hj
    exact hp (List.prefix_nil.mp hj)
  have hmem : j ∈ (List.range (l.length + 1)).filter
      (fun i => decide (pat <+: l.drop i)) := by
    rw [List.mem_filter]
    exact ⟨List.mem_range.mpr (Nat.lt_succ_of_le hjl), by simpa using hj⟩
  rw [occCount] at h
  rw [List.length_eq_zero.mp h] at hmem
  cases hmem

lemma occCount_one_unique {pat l : List Char} (hp : pat ≠ [])
    (h : occCount pat l = 1) {i j : Nat}
    (hi : pat <+: l.drop i) (hj : pat <+: l.drop j) : i = j := by
  have hmem : ∀ m, pat <+: l.drop m →
      m ∈ (List.range (l.length + 1)).filter (fun i => decide (pat <+: l.drop i)) := by
    intro m hm
    have hml : m ≤ l.length := by
      by_contra hgt
      push_neg at hgt
      rw [List.drop_eq_nil_of_le (Nat.le_of_lt hgt)] at hm
      exact hp (List.prefix_nil.mp hm)
    rw [List.mem_filter]
    exact ⟨List.mem_range.mpr (Nat.lt_succ_of_le hml), by simpa using hm⟩
  rw [occCount] at h
  obtain ⟨a, ha⟩ := List.length_eq_one.mp h
  have h1 := hmem i hi
  have h2 := hmem j hj
  rw [ha] at h1 h2
  rw [List.mem_singleton.mp h1, List.mem_singleton.mp h2]

/-- C2: chunk-boundary independence of the streaming think filter. -/
theorem stream_filter_chunk_independence (chunks : List (List Char)) :
    StreamClaim chunks := by
  have hbase : StreamInv [] [] [] FState.buffering := ⟨rfl, rfl, rfl⟩
  have hinv := runFrom_inv chunks [] [] [] FState.buffering hbase
  rw [List.nil_append] at hinv
  constructor
  · intro hone p hocc
    cases hst : (runFrom [] [] FState.buffering chunks).2.2 with
    | buffering =>
      rw [hst] at hinv
      obtain ⟨_, _, hfs⟩ := hinv
      exact absurd hocc (findSub_none closeMarker_ne_nil hfs p)
    | normal =>
      rw [hst] at hinv
      obtain ⟨hb, q, hfs, he⟩ := hinv
      have hq : closeMarker <+: chunks.flatten.drop q := (findSub_some hfs).1
      have hpq : q = p := occCount_one_unique closeMarker_ne_nil hone hq hocc
      rw [streamOut, hb, List.append_nil, he, hpq]
  · intro hzero
    cases hst : (runFrom [] [] FState.buffering chunks).2.2 with
    | buffering =>
      rw [hst] at hinv
      obtain ⟨he, hb, _⟩ := hinv
      rw [streamOut, he, List.nil_append, hb]
    | normal =>
      rw [hst] at hinv
      obtain ⟨_, q, hfs, _⟩ := hinv
      have hq : closeMarker <+: chunks.flatten.drop q := (findSub_some hfs).1
      exact absurd hq (occCount_zero closeMarker_ne_nil hzero q)

/-- Witness for C2: the marker split across three chunks, with content
after it. -/
theorem stream_filter_chunk_independence_witness :
    occCount closeMarker (([['h', 'i', '<', '/'], ['t', 'h'], ['i', 'n', 'k', '>', 'o', 'k']] :
        List (List Char)).flatten) = 1 ∧
    streamOut [['h', 'i', '<', '/'], ['t', 'h'], ['i', 'n', 'k', '>', 'o', 'k']] =
      (([['h', 'i', '<', '/'], ['t', 'h'], ['i', 'n', 'k', '>', 'o', 'k']] :
        List (List Char)).flatten).drop (2 + closeMarker.length) :=
  ⟨by decide,
   (stream_filter_chunk_independence
      [['h', 'i', '<', '/'], ['t', 'h'], ['i', 'n', 'k', '>', 'o', 'k']]).1
     (by decide) 2 (by decide)⟩

/-! ### C8: the Komga BookLinkCache (src/komga.py 90-147, 43-50) -/

/-- One book entry as returned by the Komga `/api/v1/books` search; `id`
is `none` when the key is missing (Python `book.get("id")`). -/
structure Book where
  name : String
  url : String
  id : Option String
  deriving DecidableEq, Repr

/-- Python truthiness of an optional string: `None` and `""` are falsy. -/
def truthyS : Option String → Bool
  | none => false
  | some s => !s.isEmpty

/-- Python `needle in hay` on strings: substring containment. -/
def substrOf (needle hay : String) : Prop := needle.data <:+: hay.data

instance (needle hay : String) : Decidable (substrOf needle hay) := by
  unfold substrOf; infer_instance

/-- The match loop of `get_book_id`: the first book whose name or url
contains the filename and whose id is truthy yields that id; a matching
book with a falsy id is skipped (the loop continues). -/
def findBook (filename : String) : List Book → Option String
  | [] => none
  | b :: t =>
    if (substrOf filename b.name ∨ substrOf filename b.url) ∧ truthyS b.id = true
    then b.id
    else findBook filename t

/-- Embedding of `_save_cache` (src/komga.py 43-50): attempts to persist
the cache; an exception is caught and logged, so the only observable
effect is what reached the disk (`none` when the write failed). -/
def save_cache (diskOk : Bool) (cache : List (String × String)) :
    Option (List (String × String)) :=
  if diskOk then some cache else none

/-- Embedding of `get_book_id` (src/komga.py 90-147).  The HTTP API is the
oracle `api`; `diskOk` says whether the `_save_cache` disk write would
succeed.  Returns the book id, the in-memory cache afterwards, and what
`_save_cache` persisted (`none` when no save happened or it failed). -/
def get_book_id (configured : Bool) (api : Except String (List Book))
    (cache : List (String × String)) (filename : String) (diskOk : Bool) :
    Option String × List (String × String) × Option (List (String × String)) :=
  if configured = false then (none, cache, none)
  else
    match lookupA cache filename with
    | some bid => (some bid, cache, none)
    | none =>
      match api with
      | .error _ => (none, cache, none)
      | .ok books =>
        match findBook filename books with
        | some bid =>
          let cache' := setA cache filename bid
          (some bid, cache', save_cache diskOk cache')
        | none => (none, cache, none)

/-- One `get_book_id` call description: configured flag, API outcome,
filename, disk outcome. -/
def runCalls (cache : List (String × String)) :
    List (Bool × Except String (List Book) × String × Bool) → List (String × String)
  | [] => cache
  | (cfg, api, fn, dsk) :: rest =>
    runCalls (get_book_id cfg api cache fn dsk).2.1 rest

lemma lookupA_setA_of_absent {cache : List (String × String)} {fn : String}
    (habs : lookupA cache fn = none) (bid : String) :
    ∀ key v, lookupA cache key = some v → lookupA (setA cache fn bid) key = some v := by
  induction cache with
  | nil => intro key v h; cases h
  | cons p t ih =>
    obtain ⟨a, b⟩ := p
    intro key v h
    simp only [lookupA] at habs
    by_cases hafn : a = fn
    · rw [if_pos hafn] at habs; cases habs
    · rw [if_neg hafn] at habs
      simp only [lookupA] at h
      by_cases hak : a = key
      · simp only [setA, if_neg hafn, lookupA, if_pos hak]
        rw [if_pos hak] at h
        exact h
      · rw [if_neg hak] at h
        simp only [setA, if_neg hafn, lookupA, if_neg hak]
        exact ih habs key v h

lemma get_book_id_preserves (cfg : Bool) (api : Except String (List Book))
    (cache : List (String × String)) (fn : String) (dsk : Bool) :
    ∀ key v, lookupA cache key = some v →
      lookupA (get_book_id cfg api cache fn dsk).2.1 key = some v := by
  intro key v h
  unfold get_book_id
  split
  · exact h
  · split
    · exact h
    · next hc =>
      split
      · exact h
      · split
        · next bid hf => exact lookupA_setA_of_absent hc bid key v h
        · exact h

/-- C8: the book-link cache is append-only across any sequence of
`get_book_id` calls — a cached filename is answered from the cache with no
cache change and no save, an existing entry is never revised by any later
call, and a failing `_save_cache` disk write changes neither the returned
id nor the in-memory cache. -/
theorem book_cache_append_only :
    (∀ (api : Except String (List Book)) (cache : List (String × String))
        (filename : String) (dsk : Bool) (bid : String),
      lookupA cache filename = some bid →
      get_book_id true api cache filename dsk = (some bid, cache, none)) ∧
    (∀ (cfg : Bool) (api : Except String (List Book)) (cache : List (String × String))
        (filename : String) (dsk : Bool) (key v : String),
      lookupA cache key = some v →
      lookupA (get_book_id cfg api cache filename dsk).2.1 key = some v) ∧
    (∀ (cfg : Bool) (api : Except String (List Book)) (cache : List (String × String))
        (filename : String) (d1 d2 : Bool),
      (get_book_id cfg api cache filename d1).1 = (get_book_id cfg api cache filename d2).1 ∧
      (get_book_id cfg api cache filename d1).2.1 = (get_book_id cfg api cache filename d2).2.1) ∧
    (∀ (calls : List (Bool × Except String (List Book) × String × Bool))
        (cache : List (String × String)) (key v : String),
      lookupA cache key = some v → lookupA (runCalls cache calls) key = some v) := by
  refine ⟨?_, get_book_id_preserves, ?_, ?_⟩
  · intro api cache filename dsk bid h
    unfold get_book_id
    rw [if_neg (by simp), h]
  · intro cfg api cache filename d1 d2
    unfold get_book_id
    split
    · exact ⟨rfl, rfl⟩
    · split
      · exact ⟨rfl, rfl⟩
      · split
        · exact ⟨rfl, rfl⟩
        · split
          · exact ⟨rfl, rfl⟩
          · exact ⟨rfl, rfl⟩
  · intro calls
    induction calls with
    | nil => intro cache key v h; exact h
    | cons c rest ih =>
      intro cache key v h
      obtain ⟨cfg, api, fn, dsk⟩ := c
      exact ih _ key v (get_book_id_preserves cfg api cache fn dsk key v h)

def w8book : Book := { name := "b.pdf scan", url := "http://k/b", id := some "id9" }

/-- Witness for C8: a cache holding `a.pdf` keeps its entry across a call
that looks up and caches `b.pdf`, with a failing disk write. -/
theorem book_cache_append_only_witness :
    lookupA [("a.pdf", "id1")] "a.pdf" = some "id1" ∧
    lookupA (get_book_id true (Except.ok [w8book])
        [("a.pdf", "id1")] "b.pdf" false).2.1 "a.pdf" = some "id1" :=
  ⟨rfl,
   (book_cache_append_only).2.1 true (Except.ok [w8book])
     [("a.pdf", "id1")] "b.pdf" false "a.pdf" "id1" rfl⟩

/-! ### C7: the response formatter (src/agent.py 29-92) -/

/-- A per-request citation map: `(document_source, page) → komga url`. -/
def CitMap : Type := List ((String × Nat) × String)

/-- Rendering of the relevance score; the source formats the float with
`f"{result.similarity:.2f}"`, modelled as the canonical rational
rendering (its exact text plays no role in the claims). -/
def format_relevance (q : ℚ) : String := toString q

/-- The page-info fragment (src/agent.py 61-65): empty without pages, a
single page as `, page N`, two or more pages as `, pages first-last`. -/
def page_info_of : Option (List Nat) → String
  | none => ""
  | some [] => ""
  | some [n] => ", page " ++ toString n
  | some (n :: m :: rest) => ", pages " ++ toString n ++ "-" ++ toString ((m :: rest).getLastD m)

/-- `first_page = page_numbers[0] if page_numbers else None` (line 59). -/
def first_page_of : Option (List Nat) → Option Nat
  | some (n :: _) => some n
  | _ => none

/-- The citation-map population loop (src/agent.py 74-83): one entry per
page of the chunk, resolved individually. -/
def populate_map (resolve : String → Option Nat → Option String) (src : String)
    (pages : List Nat) (cm : CitMap) : CitMap :=
  pages.foldl (fun m page =>
    match resolve src (some page) with
    | some pu => setA m (src, page) pu
    | none => m) cm

/-- The deep-link block (src/agent.py 67-83): only for `.pdf` sources with
a configured Komga client; on a resolved URL emits the `View in Komga`
annotation and populates the citation map when a state object and pages
are present. -/
def source_link_of (resolve : String → Option Nat → Option String)
    (configured : Bool) (r : SearchResult) (state : Option CitMap) :
    String × Option CitMap :=
  if r.document_source.endsWith ".pdf" ∧ configured = true then
    match resolve r.document_source (first_page_of r.metadata.page_numbers) with
    | some url =>
      (" [View in Komga](" ++ url ++ ")",
        match state, r.metadata.page_numbers with
        | some cm, some (p :: ps) =>
          some (populate_map resolve r.document_source (p :: ps) cm)
        | _, _ => state)
    | none => ("", state)
  else ("", state)

/-- The per-result paragraph header (src/agent.py 85-89). -/
def doc_line (i : Nat) (r : SearchResult) (pinfo slink : String) : String :=
  "\n--- Document " ++ toString i ++ ": " ++ r.document_title ++
    " (source: " ++ r.document_source ++ ")" ++ pinfo ++ slink ++
    " (relevance: " ++ format_relevance r.similarity ++ ") ---"

/-- The formatting loop (src/agent.py 55-91), threading the citation-map
state; each result contributes its header line and its content. -/
def format_loop (resolve : String → Option Nat → Option String)
    (configured : Bool) : Nat → List SearchResult → Option CitMap →
      List String × Option CitMap
  | _, [], state => ([], state)
  | i, r :: rs, state =>
    let pinfo := page_info_of r.metadata.page_numbers
    let sl := source_link_of resolve configured r state
    let rest := format_loop resolve configured (i + 1) rs sl.2
    (doc_line i r pinfo sl.1 :: r.content :: rest.1, rest.2)

/-- Python `"\n".join` on the accumulated parts. -/
def joinNl : List String → String
  | [] => ""
  | [p] => p
  | p :: q :: rest => p ++ "\n" ++ joinNl (q :: rest)

/-- Embedding of `format_search_results` (src/agent.py 29-92). -/
def format_search_results (resolve : String → Option Nat → Option String)
    (configured : Bool) (results : List SearchResult) (state : Option CitMap) :
    String × Option CitMap :=
  if results = [] then ("No relevant information found.", state)
  else
    let header := "Found " ++ toString results.length ++ " relevant documents:\n"
    let looped := format_loop resolve configured 1 results state
    (joinNl (header :: looped.1), looped.2)

lemma joinNl_infix {p : String} : ∀ {parts : List String}, p ∈ parts →
    ∃ pre post, joinNl parts = pre ++ p ++ post := by
  intro parts
  induction parts with
  | nil => intro h; cases h
  | cons x rest ih =>
    intro h
    rcases List.mem_cons.mp h with rfl | hrest
    · cases rest with
      | nil => exact ⟨"", "", by simp [joinNl]⟩
      | cons q t =>
        refine ⟨"", "\n" ++ joinNl (q :: t), ?_⟩
        simp only [joinNl]
        rw [String.append_assoc]
        simp
    · obtain ⟨pre, post, hpp⟩ := ih hrest
      cases rest with
      | nil => cases hrest
      | cons q t =>
        refine ⟨x ++ "\n" ++ pre, post, ?_⟩
        simp only [joinNl] at hpp ⊢
        rw [hpp]
        simp [String.append_assoc]

lemma format_loop_mem (resolve : String → Option Nat → Option String)
    (configured : Bool) {r : SearchResult} :
    ∀ (rs : List SearchResult) (i : Nat) (state : Option CitMap), r ∈ rs →
      ∃ j sl, doc_line j r (page_info_of r.metadata.page_numbers) sl ∈
        (format_loop resolve configured i rs state).1 := by
  intro rs
  induction rs with
  | nil => intro i state h; cases h
  | cons x rest ih =>
    intro i state h
    rcases List.mem_cons.mp h with rfl | hrest
    · exact ⟨i, (source_link_of resolve configured r state).1,
        List.mem_cons_self _ _⟩
    · obtain ⟨j, sl, hj⟩ := ih (i + 1) (source_link_of resolve configured x state).2 hrest
      exact ⟨j, sl, List.mem_cons_of_mem _ (List.mem_cons_of_mem _ hj)⟩

lemma doc_line_decomp (i : Nat) (r : SearchResult) (pinfo slink : String) :
    ∃ pre post, doc_line i r pinfo slink = pre ++ pinfo ++ post := by
  refine ⟨"\n--- Document " ++ toString i ++ ": " ++ r.document_title ++
    " (source: " ++ r.document_source ++ ")",
    slink ++ " (relevance: " ++ format_relevance r.similarity ++ ") ---", ?_⟩
  simp only [doc_line, String.append_assoc]

/-- C7: page rendering in `format_search_results` — a single page renders
`, page N`, two or more pages render `, pages N-M` from the first and last
entries only, no pages render nothing; and for any non-empty result list
the formatted output contains each result's page fragment. -/
theorem format_page_rendering :
    (∀ n : Nat, page_info_of (some [n]) = ", page " ++ toString n) ∧
    (∀ (l : List Nat) (a b : Nat), 2 ≤ l.length → l.head? = some a →
      l.getLast? = some b →
      page_info_of (some l) = ", pages " ++ toString a ++ "-" ++ toString b) ∧
    (page_info_of none = "" ∧ page_info_of (some []) = "") ∧
    (∀ (resolve : String → Option Nat → Option String) (configured : Bool)
        (results : List SearchResult) (state : Option CitMap) (r : SearchResult),
      r ∈ results →
      ∃ pre post, (format_search_results resolve configured results state).1 =
        pre ++ page_info_of r.metadata.page_numbers ++ post) := by
  refine ⟨fun n => rfl, ?_, ⟨rfl, rfl⟩, ?_⟩
  · intro l a b hlen hhead hlast
    cases l with
    | nil => cases hhead
    | cons x t =>
      cases t with
      | nil => simp at hlen
      | cons m rest =>
        have hx : x = a := by simpa using hhead
        have hb : (m :: rest).getLastD m = b := by
          rw [List.getLastD_eq_getLast?]
          rw [List.getLast?_cons_cons] at hlast
          rw [hlast]
          rfl
        subst hx
        simp only [page_info_of, hb]
  · intro resolve configured results state r hr
    have hne : results ≠ [] := fun h => by rw [h] at hr; cases hr
    obtain ⟨j, sl, hmem⟩ := format_loop_mem resolve configured results 1 state hr
    have hmem2 : doc_line j r (page_info_of r.metadata.page_numbers) sl ∈
        (("Found " ++ toString results.length ++ " relevant documents:\n") ::
          (format_loop resolve configured 1 results state).1) :=
      List.mem_cons_of_mem _ hmem
    obtain ⟨pre, post, hjoin⟩ := joinNl_infix hmem2
    obtain ⟨pre2, post2, hline⟩ :=
      doc_line_decomp j r (page_info_of r.metadata.page_numbers) sl
    refine ⟨pre ++ pre2, post2 ++ post, ?_⟩
    rw [format_search_results, if_neg hne]
    simp only []
    rw [hjoin, hline]
    simp [String.append_assoc]

/-- Witness for C7 at the spec's own example `[42,43,44]`. -/
theorem format_page_rendering_witness :
    2 ≤ ([42, 43, 44] : List Nat).length ∧
    page_info_of (some [42, 43, 44]) = ", pages " ++ toString 42 ++ "-" ++ toString 44 :=
  ⟨by decide, format_page_rendering.2.1 [42, 43, 44] 42 44 (by decide) rfl rfl⟩

/-! ### C6/C10: citation linkification (src/response_filter.py 233-311,
src/komga.py 184-214)

The citation regex
`(?<!\]\()(?<!\|)(\b[\w-]+(?:\.pdf)?)\s*,?\s*(?:pp?\.?|pages?)\s*(\d+)(?:\s*[-–—]\s*(\d+))?`
(compiled with IGNORECASE) and `re.sub`'s leftmost-scan backtracking
semantics are embedded as an explicit scanner over character lists. -/

/-- Case-insensitive literal match (the pattern is compiled with
`re.IGNORECASE`); returns the remaining suffix on success. -/
def ciPrefixDrop : List Char → List Char → Option (List Char)
  | [], s => some s
  | _ :: _, [] => none
  | p :: ps, c :: cs => if p.toLower = c.toLower then ciPrefixDrop ps cs else none

/-- Python `\w` (ASCII model): letters, digits, underscore. -/
def isWordChar (c : Char) : Bool := c.isAlphanum || c = '_'

/-- Python `\s` (ASCII model). -/
def isWsChar (c : Char) : Bool := c.isWhitespace

def isDigitChar (c : Char) : Bool := c.isDigit

/-- Python `int` on a digit run. -/
def natOfDigits (ds : List Char) : Nat := ds.foldl (fun n c => 10 * n + (c.toNat - 48)) 0

/-- `(\d+)(?:\s*[-–—]\s*(\d+))?`: a greedy digit run, then optionally a
dash (the en/em glyphs remain in the character class even though
normalization has already replaced them) and a second digit run.  Returns
`(first page, optional last page, rest)`. -/
def parsePages (s : List Char) : Option (Nat × Option Nat × List Char) :=
  let ds := s.takeWhile isDigitChar
  if ds.isEmpty then none
  else
    let p1 := natOfDigits ds
    let r1 := s.drop ds.length
    let r2 := r1.dropWhile isWsChar
    match r2 with
    | d :: r3 =>
      if d = '-' ∨ d = '–' ∨ d = '—' then
        let r4 := r3.dropWhile isWsChar
        let ds2 := r4.takeWhile isDigitChar
        if ds2.isEmpty then some (p1, none, r1)
        else some (p1, some (natOfDigits ds2), r4.drop ds2.length)
      else some (p1, none, r1)
    | [] => some (p1, none, r1)

/-- The alternation `(?:pp?\.?|pages?)` in the order the regex engine
tries its alternatives and optional parts (greedy, leftmost branch
first). -/
def pageWords : List (List Char) :=
  [['p', 'p', '.'], ['p', 'p'], ['p', '.'], ['p'],
   ['p', 'a', 'g', 'e', 's'], ['p', 'a', 'g', 'e']]

/-- Try each page-word alternative; on a literal match whose continuation
(`\s*` then pages) fails, backtrack to the next alternative. -/
def tryPageWords : List (List Char) → List Char → Option (Nat × Option Nat × List Char)
  | [], _ => none
  | w :: ws, s =>
    match ciPrefixDrop w s with
    | some r =>
      match parsePages (r.dropWhile isWsChar) with
      | some res => some res
      | none => tryPageWords ws s
    | none => tryPageWords ws s

/-- `\s*,?\s*` followed by the page-word alternation.  The comma handling
is deterministic because the next token starts with a non-space,
non-comma letter. -/
def afterFilename (s : List Char) : Option (Nat × Option Nat × List Char) :=
  let r1 := s.dropWhile isWsChar
  let r2 := match r1 with
    | ',' :: t => t
    | _ => r1
  let r3 := r2.dropWhile isWsChar
  tryPageWords pageWords r3

/-- Characters matched by `[\w-]`. -/
def fnChar (c : Char) : Bool := isWordChar c || c = '-'

/-- Backtracking over the greedy `[\w-]+` run (longest first) with the
greedy optional `(?:\.pdf)?` (with-`.pdf` first).  `run` is the maximal
`[\w-]` run at the match position, `s` the full suffix.  Returns
`(group 1, first page, last page, rest)`. -/
def tryFilename (run s : List Char) : Nat → Option (List Char × Nat × Option Nat × List Char)
  | 0 => none
  | len + 1 =>
    let base := run.take (len + 1)
    let rest0 := s.drop (len + 1)
    let withPdf :=
      match ciPrefixDrop ['.', 'p', 'd', 'f'] rest0 with
      | some rest1 =>
        match afterFilename rest1 with
        | some (p1, p2, rest2) => some (base ++ rest0.take 4, p1, p2, rest2)
        | none => none
      | none => none
    match withPdf with
    | some res => some res
    | none =>
      match afterFilename rest0 with
      | some (p1, p2, rest2) => some (base, p1, p2, rest2)
      | none => tryFilename run s len

/-- Word-character test on an optional character (`none` at the text
edges counts as non-word, as in Python's `\b`). -/
def wordOpt : Option Char → Bool
  | none => false
  | some c => isWordChar c

/-- One matched citation: the full matched text (group 0), the filename
(group 1), the pages, and the suffix after the match. -/
structure CitHit where
  g0 : List Char
  filename : List Char
  p1 : Nat
  p2 : Option Nat
  rest : List Char
  deriving DecidableEq, Repr

/-- A single match attempt of the citation pattern at one position.
`prev` is the reversed text before the position (for the two negative
lookbehinds and the word boundary), `s` the suffix at the position. -/
def attemptCitation (prev s : List Char) : Option CitHit :=
  if prev.take 2 = ['(', ']'] then none
  else if prev.head? = some '|' then none
  else if wordOpt prev.head? = wordOpt s.head? then none
  else
    let run := s.takeWhile fnChar
    if run.isEmpty then none
    else
      match tryFilename run s run.length with
      | some (g1, p1, p2, rest) =>
        some { g0 := s.take (s.length - rest.length), filename := g1,
               p1 := p1, p2 := p2, rest := rest }
      | none => none

/-- Decimal rendering of a page number (Python `f"{int_value}"`). -/
def digitsOf (n : Nat) : List Char := (toString n).data

/-! The cache-only Komga resolver (src/komga.py 184-214). -/

/-- The fields of `KomgaClient` that `get_source_url_sync` reads. -/
structure Komga where
  base_url : List Char
  username : List Char
  password : List Char
  cache : List (List Char × List Char)
  deriving DecidableEq, Repr

/-- `is_configured`: all three connection settings truthy. -/
def komgaConfigured (k : Komga) : Bool :=
  !k.base_url.isEmpty && !k.username.isEmpty && !k.password.isEmpty

/-- Python truthiness of an optional string: `None` and `""` are falsy. -/
def truthyL : Option (List Char) → Bool
  | none => false
  | some s => !s.isEmpty

/-- Python `filename.endswith('.pdf')` (case-sensitive). -/
def endsWithPdf (f : List Char) : Bool := decide (['.', 'p', 'd', 'f'] <:+ f)

/-- `get_page_url` (src/komga.py 149-161). -/
def get_page_url (base bid : List Char) (page : Nat) : List Char :=
  base ++ "/book/".data ++ bid ++ "/read?page=".data ++ digitsOf page

/-- Embedding of `get_source_url_sync` (src/komga.py 184-214): cache-only
lookup, retrying with `.pdf` appended, 1-indexed page deep link with a
falsy page falling back to page 1. -/
def get_source_url_sync (k : Komga) (filename : List Char) (page : Option Nat) :
    Option (List Char) :=
  if komgaConfigured k = false then none
  else
    let bid0 := lookupA k.cache filename
    let bid1 :=
      if truthyL bid0 = false ∧ endsWithPdf filename = false
      then lookupA k.cache (filename ++ ['.', 'p', 'd', 'f'])
      else bid0
    if truthyL bid1 = false then none
    else
      match bid1 with
      | some bid =>
        match page with
        | some p =>
          if p ≠ 0 then some (get_page_url k.base_url bid p)
          else some (k.base_url ++ "/book/".data ++ bid ++ "/read?page=1".data)
        | none => some (k.base_url ++ "/book/".data ++ bid ++ "/read?page=1".data)
      | none => none

/-- The lookup chain of `replace_citation` (src/response_filter.py
284-292): citation map at `(filename, first page)`, retry with `.pdf`
appended when the filename lacks it, then the cache-only resolver. -/
def citation_url (cmap : List ((List Char × Nat) × List Char))
    (client : Option Komga) (filename : List Char) (p1 : Nat) :
    Option (List Char) :=
  let url0 := lookupA cmap (filename, p1)
  let url1 :=
    if truthyL url0 = false ∧ endsWithPdf filename = false
    then lookupA cmap (filename ++ ['.', 'p', 'd', 'f'], p1)
    else url0
  if truthyL url1 = false then
    match client with
    | some k => get_source_url_sync k filename (some p1)
    | none => url1
  else url1

/-- The markdown link text (src/response_filter.py 295-299). -/
def citation_link_text (filename : List Char) (p1 : Nat) (p2 : Option Nat) :
    List Char :=
  match p2 with
  | some lp => filename ++ ", pp. ".data ++ digitsOf p1 ++ ['-'] ++ digitsOf lp
  | none => filename ++ ", p. ".data ++ digitsOf p1

/-- `replace_citation` (src/response_filter.py 279-303): a truthy resolved
URL yields a markdown link, otherwise the matched text is returned
unchanged. -/
def replace_citation (cmap : List ((List Char × Nat) × List Char))
    (client : Option Komga) (h : CitHit) : List Char :=
  let url := citation_url cmap client h.filename h.p1
  if truthyL url = true then
    match url with
    | some u => '[' :: citation_link_text h.filename h.p1 h.p2 ++ [']', '('] ++ u ++ [')']
    | none => h.g0
  else h.g0

/-- The `re.sub` scan for the citation pattern: at each position try a
match; on success emit the replacement and continue after the matched
span, otherwise copy one character.  `fuel` bounds the recursion (every
step consumes at least one character, so `length + 1` suffices). -/
def subCitations (cmap : List ((List Char × Nat) × List Char))
    (client : Option Komga) : Nat → List Char → List Char → List Char
  | 0, _, s => s
  | fuel + 1, prev, s =>
    match s with
    | [] => []
    | c :: rest =>
      match attemptCitation prev s with
      | some h =>
        replace_citation cmap client h ++
          subCitations cmap client fuel (h.g0.reverse ++ prev) h.rest
      | none => c :: subCitations cmap client fuel (c :: prev) rest

/-- One match attempt of the cleanup pattern
`\(\[([^\]]+\.pdf[^\]]+)\]\(([^)]+)\)\)` (src/response_filter.py 309):
`([REGION](URL))` where REGION has no `]`, contains `.pdf` with at least
one character on each side, and URL is a non-empty run without `)`.
Returns the replacement `[REGION](URL)` and the suffix after the match. -/
def attemptParenClean (s : List Char) : Option (List Char × List Char) :=
  match s with
  | '(' :: '[' :: r =>
    let region := r.takeWhile (fun c => c ≠ ']')
    let r2 := r.drop region.length
    let hasPdf := (List.range region.length).any (fun i =>
      decide (0 < i) && decide (['.', 'p', 'd', 'f'] <+: region.drop i) &&
        decide (i + 4 < region.length))
    if region.isEmpty || !hasPdf then none
    else
      match r2 with
      | ']' :: '(' :: r3 =>
        let url := r3.takeWhile (fun c => c ≠ ')')
        let r4 := r3.drop url.length
        if url.isEmpty then none
        else
          match r4 with
          | ')' :: ')' :: r5 =>
            some ('[' :: region ++ [']', '('] ++ url ++ [')'], r5)
          | _ => none
      | _ => none
  | _ => none

/-- The `re.sub` scan for the cleanup pattern. -/
def subParenClean : Nat → List Char → List Char
  | 0, s => s
  | fuel + 1, s =>
    match s with
    | [] => []
    | c :: rest =>
      match attemptParenClean s with
      | some (repl, r5) => repl ++ subParenClean fuel r5
      | none => c :: subParenClean fuel rest

/-- The dash-normalization loop (src/response_filter.py 264-269): each of
the five dash glyphs is replaced by a plain hyphen (the sequential
`str.replace` calls act on disjoint single characters, so a character map
is equivalent). -/
def normalizeDashes (s : List Char) : List Char :=
  s.map (fun c =>
    if c = '‐' ∨ c = '‑' ∨ c = '‒' ∨ c = '–' ∨ c = '—'
    then '-' else c)

/-- Python truthiness of the optional citation map (`{}` is falsy). -/
def truthyMap : Option (List ((List Char × Nat) × List Char)) → Bool
  | none => false
  | some [] => false
  | some (_ :: _) => true

/-- Embedding of `linkify_citations` (src/response_filter.py 233-311). -/
def linkify_citations (text : List Char)
    (citation_map : Option (List ((List Char × Nat) × List Char)))
    (komga_client : Option Komga) : List Char :=
  if truthyMap citation_map = false ∧ komga_client = none then text
  else
    let cmap := citation_map.getD []
    let normalized := normalizeDashes text
    let r1 := subCitations cmap komga_client (normalized.length + 1) [] normalized
    subParenClean (r1.length + 1) r1

/-- Counterexample to C6 as stated: a citation inside the square-bracket
text of an existing markdown link is matched again (the lookbehind only
guards positions right after `](` or `|`), so with a citation-map hit the
text inside a markdown link IS re-linkified. -/
theorem linkify_relink_counterexample :
    linkify_citations "[GRR.pdf, p. 4](u)".data
        (some [(("GRR.pdf".data, 4), "X".data)]) none =
      "[[GRR.pdf, p. 4](X)](u)".data ∧
    "[[GRR.pdf, p. 4](X)](u)".data ≠ "[GRR.pdf, p. 4](u)".data :=
  ⟨by decide, by decide⟩

/-- C6 as amended: with a citation map or client present,
`linkify_citations` is dash normalization followed by the citation
substitution pass and the paren-cleanup pass; a match is never produced
immediately after `](` or `|`; the URL lookup tries the citation map at
`(filename, first page)`, retries with `.pdf` appended, then falls back
to the cache-only resolver; a hit rewrites the citation as a markdown
link and a miss leaves the matched text unchanged. -/
theorem linkify_citations_amended :
    (∀ (text : List Char) (cm : Option (List ((List Char × Nat) × List Char)))
        (client : Option Komga),
      ¬(truthyMap cm = false ∧ client = none) →
      linkify_citations text cm client =
        subParenClean ((subCitations (cm.getD []) client
            ((normalizeDashes text).length + 1) [] (normalizeDashes text)).length + 1)
          (subCitations (cm.getD []) client ((normalizeDashes text).length + 1) []
            (normalizeDashes text))) ∧
    (∀ (prev s : List Char) (h : CitHit), attemptCitation prev s = some h →
      prev.take 2 ≠ ['(', ']'] ∧ prev.head? ≠ some '|') ∧
    (∀ (cmap : List ((List Char × Nat) × List Char)) (client : Option Komga)
        (f : List Char) (p : Nat) (u : List Char),
      lookupA cmap (f, p) = some u → u ≠ [] →
      citation_url cmap client f p = some u) ∧
    (∀ (cmap : List ((List Char × Nat) × List Char)) (client : Option Komga)
        (f : List Char) (p : Nat) (u : List Char),
      truthyL (lookupA cmap (f, p)) = false → endsWithPdf f = false →
      lookupA cmap (f ++ ['.', 'p', 'd', 'f'], p) = some u → u ≠ [] →
      citation_url cmap client f p = some u) ∧
    (∀ (cmap : List ((List Char × Nat) × List Char)) (k : Komga)
        (f : List Char) (p : Nat),
      truthyL (lookupA cmap (f, p)) = false →
      truthyL (lookupA cmap (f ++ ['.', 'p', 'd', 'f'], p)) = false →
      citation_url cmap (some k) f p = get_source_url_sync k f (some p)) ∧
    (∀ (cmap : List ((List Char × Nat) × List Char)) (client : Option Komga)
        (h : CitHit) (u : List Char),
      citation_url cmap client h.filename h.p1 = some u → u ≠ [] →
      replace_citation cmap client h =
        '[' :: citation_link_text h.filename h.p1 h.p2 ++ [']', '('] ++ u ++ [')']) ∧
    (∀ (cmap : List ((List Char × Nat) × List Char)) (client : Option Komga)
        (h : CitHit),
      truthyL (citation_url cmap client h.filename h.p1) = false →
      replace_citation cmap client h = h.g0) := by
  refine ⟨?_, ?_, ?_, ?_, ?_, ?_, ?_⟩
  · intro text cm client hguard
    rw [linkify_citations, if_neg hguard]
  · intro prev s h hsome
    rw [attemptCitation] at hsome
    constructor
    · intro hlb
      rw [if_pos hlb] at hsome
      cases hsome
    · intro hlb
      by_cases h1 : prev.take 2 = ['(', ']']
      · rw [if_pos h1] at hsome; cases hsome
      · rw [if_neg h1, if_pos hlb] at hsome; cases hsome
  · intro cmap client f p u hlk hu
    have ht : truthyL (some u) = true := by
      rw [truthyL]; simpa using hu
    simp [citation_url, hlk, ht]
  · intro cmap client f p u h0 hpdf hlk hu
    have ht : truthyL (some u) = true := by
      rw [truthyL]; simpa using hu
    simp [citation_url, h0, hpdf, hlk, ht]
  · intro cmap k f p h0 h1
    by_cases hpdf : endsWithPdf f = false
    · simp [citation_url, h0, hpdf, h1]
    · have hpdf2 : endsWithPdf f = true := by simpa using hpdf
      simp [citation_url, h0, hpdf2]
  · intro cmap client h u hurl hu
    have ht : truthyL (some u) = true := by
      rw [truthyL]; simpa using hu
    simp [replace_citation, hurl, ht]
  · intro cmap client h hurl
    simp [replace_citation, hurl]

/-- Witness for the amended C6: a direct citation-map hit resolves through
the lookup chain. -/
theorem linkify_citations_amended_witness :
    lookupA [(("GRR.pdf".data, 4), "X".data)] ("GRR.pdf".data, 4) = some "X".data ∧
    citation_url [(("GRR.pdf".data, 4), "X".data)] none "GRR.pdf".data 4 =
      some "X".data :=
  ⟨by decide,
   linkify_citations_amended.2.2.1 [(("GRR.pdf".data, 4), "X".data)] none
     "GRR.pdf".data 4 "X".data (by decide) (by decide)⟩

/-- C10: with an empty or absent citation map and no Komga client,
`linkify_citations` returns its input exactly — no dash normalization or
other rewriting happens (the early return on line 259-260). -/
theorem linkify_identity (text : List Char) :
    linkify_citations text none none = text ∧
    linkify_citations text (some []) none = text := by
  constructor
  · rw [linkify_citations, if_pos ⟨rfl, rfl⟩]
  · rw [linkify_citations, if_pos ⟨rfl, rfl⟩]
